import Mathlib

/-!
Verification of the log-scout LSP server (Rust) against its specification.

The development shallowly embeds the relevant parts of the source:

* `src/pattern_engine.rs` — severity model, log-level detection,
  severity evaluation, field extraction, per-line detection, the
  context processor;
* `src/server.rs` — detection deduplication, template substitution,
  detection-to-diagnostic conversion;
* `src/tagscout/cache.rs` — placeholder normalization and `add_pattern`;
* `src/tagscout/converter.rs` — annotation conversion and batch conversion;
* `src/tagscout/mod.rs` — the sync-mode policy of `SyncService::sync`.

Modelling conventions:

* Rust `String`/`&str` values are embedded as `List Char` (named `Str`
  below), so that the character-level scanning done by the code can be
  reasoned about directly.
* The external `regex` crate is not re-implemented.  A compiled regex is
  embedded as its observable behaviour: a function from the subject text
  to its list of capture results (for primary pattern regexes), or an
  optional compile result (for the regexes built at run time from
  severity-trigger values).  The scanning regexes that the code builds
  from *fixed* pattern strings (the placeholder regexes
  `\{\{\s*NAME\s*\}\}` and `\{\{\s*([A-Za-z_][A-Za-z0-9_]*)\s*\}\}`)
  are embedded faithfully as deterministic scanners; for names that
  neither start nor end with a whitespace character (in particular for
  the identifier-shaped names the normalizer produces) the deterministic
  scan coincides with the backtracking regex semantics.
* `HashMap` values are embedded as association lists.  Where the code
  only looks keys up, the list order is irrelevant; where the code
  iterates a map (template substitution), the iteration order of the
  Rust `HashMap` is arbitrary, and the embedding fixes the list order —
  any list order is a realizable iteration order.
* `f64` parsing (`str::parse::<f64>`) is embedded as an exact rational
  parser for the decimal/exponent grammar (the `inf`/`NaN` spellings and
  the rounding to binary floating point are not modelled; the claims
  exercised here concern parse failure and ordinary decimal comparison).
* Wall-clock values (`Utc::now`, `Instant`) are passed in explicitly.
-/

namespace LogScout

/-- Rust strings, embedded character by character. -/
abbrev Str := List Char

/-- `severity` enum of `pattern_engine.rs`. -/
inductive Severity where
  | Error
  | Warning
  | Info
  | Hint
deriving DecidableEq, Repr

/-- The sort key used by `deduplicate_detections` in `server.rs`
(`Error => 0, Warning => 1, Info => 2, Hint => 3`). -/
def severityRank : Severity → Nat
  | .Error => 0
  | .Warning => 1
  | .Info => 2
  | .Hint => 3

/-- The LSP numeric severity produced in `detection_to_diagnostic`
(`DiagnosticSeverity::ERROR = 1`, `WARNING = 2`, `INFORMATION = 3`,
`HINT = 4`). -/
def severityToLsp : Severity → Nat
  | .Error => 1
  | .Warning => 2
  | .Info => 3
  | .Hint => 4

/-- `LogLevel` enum of `pattern_engine.rs`. -/
inductive LogLevel where
  | FATAL
  | ERROR
  | WARN
  | WARNING
  | INFO
  | DEBUG
  | TRACE
  | VERBOSE
deriving DecidableEq, Repr

/-- `LogLevel::from_str` (`pattern_engine.rs`).  The Rust code first
upper-cases its argument; the call sites reached from
`detect_log_level` only pass the already upper-case tokens below, and
the embedding upper-cases ASCII letters the same way. -/
def upcaseChar (c : Char) : Char :=
  if 'a' ≤ c ∧ c ≤ 'z' then Char.ofNat (c.toNat - 32) else c

/-- ASCII upper-casing of a string (models `str::to_uppercase` on the
ASCII tokens involved in log-level detection). -/
def upcase (s : Str) : Str := s.map upcaseChar

/-- `LogLevel::from_str`. -/
def LogLevel.fromStr (s : Str) : Option LogLevel :=
  let u := upcase s
  if u = [ 'F', 'A', 'T', 'A', 'L' ] ∨ u = [ 'C', 'R', 'I', 'T', 'I', 'C', 'A', 'L' ] ∨
     u = [ 'C', 'R', 'I', 'T' ] then some .FATAL
  else if u = [ 'E', 'R', 'R', 'O', 'R' ] ∨ u = [ 'E', 'R', 'R' ] then some .ERROR
  else if u = [ 'W', 'A', 'R', 'N' ] ∨ u = [ 'W', 'A', 'R', 'N', 'I', 'N', 'G' ] then some .WARN
  else if u = [ 'I', 'N', 'F', 'O' ] ∨
     u = [ 'I', 'N', 'F', 'O', 'R', 'M', 'A', 'T', 'I', 'O', 'N' ] then some .INFO
  else if u = [ 'D', 'E', 'B', 'U', 'G' ] ∨ u = [ 'D', 'B', 'G' ] then some .DEBUG
  else if u = [ 'T', 'R', 'A', 'C', 'E' ] ∨ u = [ 'T', 'R', 'C' ] then some .TRACE
  else if u = [ 'V', 'E', 'R', 'B', 'O', 'S', 'E' ] ∨ u = [ 'V', 'E', 'R', 'B' ] ∨
     u = [ 'V' ] then some .VERBOSE
  else none

/-- Substring containment, modelling Rust `str::contains` with a string
needle. -/
def containsSub (hay needle : Str) : Bool :=
  hay.tails.any (fun t => needle.isPrefixOf t)

/-- The fixed token list scanned by `CompiledPattern::detect_log_level`,
in its priority order. -/
def levelTokens : List Str :=
  [ [ 'F', 'A', 'T', 'A', 'L' ],
    [ 'C', 'R', 'I', 'T', 'I', 'C', 'A', 'L' ],
    [ 'C', 'R', 'I', 'T' ],
    [ 'E', 'R', 'R', 'O', 'R' ],
    [ 'E', 'R', 'R' ],
    [ 'W', 'A', 'R', 'N' ],
    [ 'W', 'A', 'R', 'N', 'I', 'N', 'G' ],
    [ 'I', 'N', 'F', 'O' ],
    [ 'I', 'N', 'F', 'O', 'R', 'M', 'A', 'T', 'I', 'O', 'N' ],
    [ 'D', 'E', 'B', 'U', 'G' ],
    [ 'D', 'B', 'G' ],
    [ 'T', 'R', 'A', 'C', 'E' ],
    [ 'T', 'R', 'C' ],
    [ 'V', 'E', 'R', 'B', 'O', 'S', 'E' ],
    [ 'V', 'E', 'R', 'B' ] ]

/-- `CompiledPattern::detect_log_level`: return the mapped level of the
first token of `levelTokens` contained in the line. -/
def detectLogLevel (line : Str) : Option LogLevel :=
  match levelTokens.find? (fun tok => containsSub line tok) with
  | some tok => LogLevel.fromStr tok
  | none => none

/-- `ConditionOperator` enum of `pattern_engine.rs`. -/
inductive ConditionOperator where
  | Equals
  | Contains
  | Regex
  | GreaterThan
  | LessThan
deriving DecidableEq, Repr

/-- `SeverityTrigger` struct of `pattern_engine.rs`. -/
structure SeverityTrigger where
  field : Str
  operator : ConditionOperator
  value : Str
  severity : Severity
  description : Option Str
deriving DecidableEq, Repr

/-- `PatternMode` enum of `pattern_engine.rs`. -/
inductive PatternMode where
  | SingleLine
  | MultiLine (contextLines : Nat)
  | Sequence (maxGapLines : Nat)
deriving DecidableEq, Repr

/-- `ParameterExtractor` struct of `pattern_engine.rs`. -/
structure ParameterExtractor where
  name : Str
  regex : Str
deriving DecidableEq, Repr

/-- First-match association-list lookup, modelling `HashMap::get`. -/
def lookupA {α : Type} [DecidableEq α] {β : Type} (l : List (α × β)) (k : α) : Option β :=
  (l.find? (fun p => p.1 = k)).map (fun p => p.2)

/-- Digit test for the decimal parser. -/
def isDigitC (c : Char) : Bool := '0' ≤ c ∧ c ≤ '9'

/-- Numeric value of a digit string. -/
def natOfDigits (s : Str) : Nat :=
  s.foldl (fun n c => n * 10 + (c.toNat - '0'.toNat)) 0

/-- Exact rational value of the `f64` decimal grammar
`[+-]? (Digits '.'? Digits? | '.' Digits) ([eE] [+-]? Digits)?`
(models `str::parse::<f64>`; `inf`/`NaN` and binary rounding are not
modelled). Returns `none` exactly when the grammar is not matched. -/
def parseDec (s : Str) : Option ℚ :=
  let core : Str → Option ℚ := fun t =>
    let d₁ := t.takeWhile isDigitC
    let r₁ := t.dropWhile isDigitC
    let sig : Option (ℚ × Str) :=
      match d₁, r₁ with
      | [], '.' :: r₂ =>
          let d₂ := r₂.takeWhile isDigitC
          if d₂ = [] then none
          else some ((natOfDigits d₂ : ℚ) / ((10 : ℚ) ^ d₂.length), r₂.dropWhile isDigitC)
      | [], _ => none
      | _ :: _, '.' :: r₂ =>
          let d₂ := r₂.takeWhile isDigitC
          some ((natOfDigits d₁ : ℚ) + (natOfDigits d₂ : ℚ) / ((10 : ℚ) ^ d₂.length),
            r₂.dropWhile isDigitC)
      | _ :: _, _ => some ((natOfDigits d₁ : ℚ), r₁)
    match sig with
    | none => none
    | some (v, rest) =>
        match rest with
        | [] => some v
        | e :: r₃ =>
            if e = 'e' ∨ e = 'E' then
              let (esgn, r₄) : ℚ × Str :=
                match r₃ with
                | '+' :: r => (1, r)
                | '-' :: r => (-1, r)
                | r => (1, r)
              let ed := r₄.takeWhile isDigitC
              if ed = [] ∨ r₄.dropWhile isDigitC ≠ [] then none
              else if esgn = 1 then some (v * (10 : ℚ) ^ natOfDigits ed)
              else some (v / (10 : ℚ) ^ natOfDigits ed)
            else none
  match s with
  | '+' :: t => core t
  | '-' :: t => (core t).map (fun v => -v)
  | t => core t

/-- A run-time regex compiler, the embedding of `Regex::new` on
severity-trigger values: `none` models a compile failure, `some m` a
compiled regex with match function `m` (`Regex::is_match`). -/
abbrev RegexComp := Str → Option (Str → Bool)

/-- One iteration of the condition-trigger loop of
`CompiledPattern::evaluate_severity`: whether `trigger`'s condition
holds on `fv` (a trigger whose field is absent never holds). -/
def condHolds (rc : RegexComp) (fv : List (Str × Str)) (t : SeverityTrigger) : Bool :=
  match lookupA fv t.field with
  | none => false
  | some v =>
      match t.operator with
      | .Equals => v = t.value
      | .Contains => containsSub v t.value
      | .Regex =>
          match rc t.value with
          | some m => m v
          | none => false
      | .GreaterThan =>
          match parseDec v, parseDec t.value with
          | some a, some b => a > b
          | _, _ => false
      | .LessThan =>
          match parseDec v, parseDec t.value with
          | some a, some b => a < b
          | _, _ => false

/-- The condition-trigger loop of `evaluate_severity`: first matching
trigger wins, else the default severity. -/
def evalCondTriggers (rc : RegexComp) (fv : List (Str × Str)) :
    List SeverityTrigger → Severity → Severity
  | [], dflt => dflt
  | t :: ts, dflt => if condHolds rc fv t then t.severity else evalCondTriggers rc fv ts dflt

/-- `TagScoutParameter` struct of `client_temp.rs`. -/
structure TagScoutParameter where
  name : Str
  regex : Str
  enum : Str
deriving DecidableEq, Repr

/-- `TagScoutAnnotation` struct of `client_temp.rs` (the MongoDB
`ObjectId` is embedded as its hex string, which is all the converter
uses of it). -/
structure TagScoutAnnot where
  id : Str
  rawData : Str
  regexes : List Str
  severity : Str
  category : List Str
  template : Str
  production : Bool
  content : Bool
  documentation : Str
  internalNotes : Str
  multiline : Option Bool
  external : Bool
  borg : Bool
  parameters : List TagScoutParameter
deriving DecidableEq, Repr

/-- `Pattern` struct of `pattern_engine.rs`.  The Rust field
`annotation` is embedded as `annotationText`; `log_level_triggers`
(a `HashMap`) as an association list (only looked up, never iterated);
`tagscout_metadata` (the annotation serialized to JSON) as the
annotation itself.  `expected_frequency` is carried as in the source
but never consulted by the verified operations. -/
structure Pattern where
  id : Str
  name : Str
  annotationText : Str
  pattern : Str
  mode : PatternMode
  severity : Severity
  category : Str
  service : Option Str
  tags : List Str
  action : Option Str
  expectedFrequency : Option Nat
  enabled : Bool
  logLevelTriggers : List (LogLevel × Severity)
  conditionTriggers : List SeverityTrigger
  captureFields : List Str
  parameterExtractors : List ParameterExtractor
  tagscoutMetadata : Option TagScoutAnnot
deriving DecidableEq, Repr

/-- `CompiledPattern::evaluate_severity` (`pattern_engine.rs`):
log-level triggers first, then condition triggers in order, then the
default severity. -/
def evaluateSeverity (rc : RegexComp) (p : Pattern) (lvl : Option LogLevel)
    (fv : List (Str × Str)) : Severity :=
  match lvl with
  | some l =>
      match lookupA p.logLevelTriggers l with
      | some s => s
      | none => evalCondTriggers rc fv p.conditionTriggers p.severity
  | none => evalCondTriggers rc fv p.conditionTriggers p.severity

/-- One capture result of the compiled primary regex
(`regex::Captures`): the full-match range and text, the values of the
regex's named groups in this capture (`None` for a named group that did
not participate), and the positional groups `1..` that participated. -/
structure MatchCap where
  start : Nat
  stop : Nat
  text : Str
  named : List (Str × Option Str)
  positional : List (Option Str)
deriving DecidableEq, Repr

/-- `CompiledPattern` of `pattern_engine.rs`.  The compiled `regex`
crate objects are embedded by their observable behaviour:
`capturesIter` is the compiled primary regex's `captures_iter`,
`captureNames` its named groups in definition order
(`Regex::capture_names`, flattened), and `paramRegexes` the
successfully compiled parameter extractors, each embedded as
`line ↦ none` (no match), `some none` (match without group 1) or
`some (some v)` (match with group 1 = `v`). -/
structure CompiledPattern where
  pattern : Pattern
  capturesIter : Str → List MatchCap
  captureNames : List Str
  paramRegexes : List (Str × (Str → Option (Option Str)))

/-- `HashMap::insert`: replace the value of an existing key, otherwise
append the binding. -/
def insertA (l : List (Str × Str)) (k : Str) (v : Str) : List (Str × Str) :=
  match l with
  | [] => [(k, v)]
  | (k', v') :: rest => if k' = k then (k, v) :: rest else (k', v') :: insertA rest k v

/-- One iteration of the named-capture loop of `extract_fields`:
insert the group's value when it participated in the match. -/
def capStep (cap : MatchCap) (fields : List (Str × Str)) (name : Str) : List (Str × Str) :=
  match lookupA cap.named name with
  | some (some v) => insertA fields name v
  | _ => fields

/-- One iteration of the parameter-extractor loop of `extract_fields`:
apply the extractor's regex to the full line and insert group 1 when it
is present. -/
def paramStep (fullLine : Str) (fields : List (Str × Str))
    (pr : Str × (Str → Option (Option Str))) : List (Str × Str) :=
  match pr.2 fullLine with
  | some (some v) => insertA fields pr.1 v
  | _ => fields

/-- `CompiledPattern::extract_fields` (`pattern_engine.rs`): named
capture groups of the primary regex first, then each parameter
extractor applied to the full line, inserting (and thus overwriting)
group 1 of its match when present. -/
def extractFields (cp : CompiledPattern) (cap : MatchCap) (fullLine : Str) :
    List (Str × Str) :=
  cp.paramRegexes.foldl (paramStep fullLine) (cp.captureNames.foldl (capStep cap) [])

/-- `Detection` struct of `pattern_engine.rs`. -/
structure Detection where
  pattern : Pattern
  lineNumber : Nat
  columnRange : Nat × Nat
  matchedText : Str
  captures : List Str
  context : List Str
  timestamp : Option Str
  logLevel : Option LogLevel
  finalSeverity : Severity
  fieldValues : List (Str × Str)
deriving DecidableEq, Repr

/-- `PatternEngine::process_line` (`pattern_engine.rs`): detect the log
level once, then for every `SingleLine` pattern and every capture of
its primary regex emit a `Detection`; non-`SingleLine` patterns are
skipped. -/
def processLine (rc : RegexComp) (patterns : List CompiledPattern) (line : Str)
    (lineNumber : Nat) : List Detection :=
  let logLevel := detectLogLevel line
  patterns.foldl
    (fun dets cp =>
      match cp.pattern.mode with
      | .SingleLine =>
          dets ++ (cp.capturesIter line).map (fun cap =>
            let fieldValues := extractFields cp cap line
            { pattern := cp.pattern
              lineNumber := lineNumber
              columnRange := (cap.start, cap.stop)
              matchedText := cap.text
              captures := cap.positional.filterMap id
              context := [line]
              timestamp := none
              logLevel := logLevel
              finalSeverity := evaluateSeverity rc cp.pattern logLevel fieldValues
              fieldValues := fieldValues })
      | _ => dets) []

/-- Whitespace class of the regex `\s` escape (ASCII part; the inputs
handled by the claims are ASCII). -/
def isWs (c : Char) : Bool :=
  c = ' ' ∨ c = '\t' ∨ c = '\n' ∨ c = '\r' ∨ c = '\x0b' ∨ c = '\x0c'

/-- Identifier-start class `[A-Za-z_]` of the normalizer regex. -/
def isIdentStart (c : Char) : Bool :=
  ('A' ≤ c ∧ c ≤ 'Z') ∨ ('a' ≤ c ∧ c ≤ 'z') ∨ c = '_'

/-- Identifier-continuation class `[A-Za-z0-9_]`. -/
def isIdentChar (c : Char) : Bool :=
  isIdentStart c ∨ isDigitC c

/-- Capture-reference name class `[0-9A-Za-z_]` of the `regex` crate's
replacement-string syntax. -/
def isRefChar (c : Char) : Bool := isIdentChar c

/-- `(List.dropWhile p l).length ≤ l.length`. -/
theorem dropWhile_len_le (p : Char → Bool) (l : Str) :
    (l.dropWhile p).length ≤ l.length := by
  induction l with
  | nil => simp [List.dropWhile]
  | cons a l ih =>
      simp only [List.dropWhile]
      split
      · exact Nat.le_succ_of_le ih
      · simp

/-- At-head match of the substitution regex `\{\{\s*NAME\s*\}\}` for a
literal `NAME` (`LogScoutServer::substitute_template` builds this regex
with `regex::escape(field_name)`).  Returns the matched text and the
remaining input.  The deterministic maximal-run scan coincides with the
backtracking regex semantics whenever `NAME` neither starts nor ends
with a whitespace character (all names exercised by the claims are
identifier-shaped). -/
def pMatchLit (name : Str) : Str → Option (Str × Str)
  | '{' :: '{' :: s₁ =>
      if name.isPrefixOf (s₁.dropWhile isWs) then
        match ((s₁.dropWhile isWs).drop name.length).dropWhile isWs with
        | '}' :: '}' :: rest =>
            some ('{' :: '{' :: (s₁.takeWhile isWs ++ name ++
              ((s₁.dropWhile isWs).drop name.length).takeWhile isWs ++ ['}', '}']), rest)
        | _ => none
      else none
  | _ => none

/-- A successful `pMatchLit` consumes at least four characters. -/
theorem pMatchLit_rest_lt (name : Str) : ∀ (s w rest : Str),
    pMatchLit name s = some (w, rest) → rest.length < s.length := by
  intro s w rest h
  unfold pMatchLit at h
  split at h
  case h_1 s₁ =>
    split at h
    case isTrue =>
      split at h
      case h_1 rest₀ heq =>
        simp only [Option.some.injEq, Prod.mk.injEq] at h
        obtain ⟨-, hr⟩ := h
        subst hr
        have h1 : (s₁.dropWhile isWs).length ≤ s₁.length := dropWhile_len_le _ _
        have h2 : ((s₁.dropWhile isWs).drop name.length).length ≤
            (s₁.dropWhile isWs).length := by
          rw [List.length_drop]
          omega
        have h3 : (((s₁.dropWhile isWs).drop name.length).dropWhile isWs).length ≤
            ((s₁.dropWhile isWs).drop name.length).length := dropWhile_len_le _ _
        rw [heq] at h3
        simp only [List.length_cons] at h3 ⊢
        omega
      case h_2 => simp at h
    case isFalse => simp at h
  case h_2 => simp at h

/-- The reference name read after `$`: the group value for a valid
reference (only group 0 exists, so a numeric reference with value `0`
yields the whole match and every other reference the empty string). -/
def groupVal (whole nm : Str) : Str :=
  if nm.all isDigitC ∧ natOfDigits nm = 0 then whole else []

/-- Fuelled worker for `expandRepl`; every step consumes at least one
character, so any fuel of at least the input length computes the
function (structural recursion on the fuel keeps the definition
kernel-reducible). -/
def expandReplF (whole : Str) : Nat → Str → Str
  | _, [] => []
  | 0, s => s
  | fuel + 1, '$' :: '$' :: r => '$' :: expandReplF whole fuel r
  | fuel + 1, '$' :: '{' :: r =>
      if isRefChar (r.headD ' ') then
        match r.dropWhile isRefChar with
        | '}' :: r' => groupVal whole (r.takeWhile isRefChar) ++ expandReplF whole fuel r'
        | _ => '$' :: expandReplF whole fuel ('{' :: r)
      else '$' :: expandReplF whole fuel ('{' :: r)
  | fuel + 1, '$' :: c :: r =>
      if isRefChar c then
        groupVal whole (c :: r.takeWhile isRefChar) ++
          expandReplF whole fuel (r.dropWhile isRefChar)
      else '$' :: expandReplF whole fuel (c :: r)
  | fuel + 1, c :: r => c :: expandReplF whole fuel r

/-- Expansion of a replacement string against a match with no capture
groups other than group 0 (the `regex` crate's behaviour when a `&str`
is used as the replacer, as `substitute_template` does: `$$` is a
literal `$`, `$0`/`${0}` the whole match, any other valid reference an
absent group and hence empty, and a `$` that starts no valid reference
is literal). -/
def expandRepl (whole : Str) (s : Str) : Str := expandReplF whole s.length s

/-- Fuelled worker for `replaceAllLit`. -/
def replaceAllLitF (name val : Str) : Nat → Str → Str
  | _, [] => []
  | 0, s => s
  | fuel + 1, c :: rest =>
      match pMatchLit name (c :: rest) with
      | some (whole, rest') => expandRepl whole val ++ replaceAllLitF name val fuel rest'
      | none => c :: replaceAllLitF name val fuel rest

/-- `Regex::replace_all` for the literal-name placeholder regex:
leftmost non-overlapping matches, each replaced by the expanded
replacement string. -/
def replaceAllLit (name val : Str) (s : Str) : Str := replaceAllLitF name val s.length s

/-- The fuelled worker is fuel-irrelevant above the input length. -/
theorem replaceAllLitF_congr (name val : Str) :
    ∀ (fuel₁ fuel₂ : Nat) (s : Str), s.length ≤ fuel₁ → s.length ≤ fuel₂ →
      replaceAllLitF name val fuel₁ s = replaceAllLitF name val fuel₂ s := by
  intro fuel₁
  induction fuel₁ with
  | zero =>
      intro fuel₂ s h₁ h₂
      have : s = [] := by
        cases s with
        | nil => rfl
        | cons a l => simp at h₁
      subst this
      cases fuel₂ <;> rfl
  | succ f ih =>
      intro fuel₂ s h₁ h₂
      cases s with
      | nil => cases fuel₂ <;> rfl
      | cons c rest =>
          cases fuel₂ with
          | zero => simp at h₂
          | succ f₂ =>
              show (match pMatchLit name (c :: rest) with
                | some (whole, rest') =>
                    expandRepl whole val ++ replaceAllLitF name val f rest'
                | none => c :: replaceAllLitF name val f rest) =
                (match pMatchLit name (c :: rest) with
                | some (whole, rest') =>
                    expandRepl whole val ++ replaceAllLitF name val f₂ rest'
                | none => c :: replaceAllLitF name val f₂ rest)
              cases hm : pMatchLit name (c :: rest) with
              | none =>
                  simp only [List.length_cons] at h₁ h₂
                  rw [ih f₂ rest (by omega) (by omega)]
              | some p =>
                  obtain ⟨whole, rest'⟩ := p
                  have hlt := pMatchLit_rest_lt name (c :: rest) whole rest' hm
                  simp only [List.length_cons] at h₁ h₂ hlt
                  dsimp only
                  rw [ih f₂ rest' (by omega) (by omega)]

/-- Step equation of `replaceAllLit` on a non-empty input. -/
theorem replaceAllLit_cons (name val : Str) (c : Char) (rest : Str) :
    replaceAllLit name val (c :: rest) =
      (match pMatchLit name (c :: rest) with
      | some (whole, rest') => expandRepl whole val ++ replaceAllLit name val rest'
      | none => c :: replaceAllLit name val rest) := by
  show replaceAllLitF name val (rest.length + 1) (c :: rest) = _
  show (match pMatchLit name (c :: rest) with
    | some (whole, rest') =>
        expandRepl whole val ++ replaceAllLitF name val rest.length rest'
    | none => c :: replaceAllLitF name val rest.length rest) = _
  cases hm : pMatchLit name (c :: rest) with
  | none => rfl
  | some p =>
      obtain ⟨whole, rest'⟩ := p
      have hlt := pMatchLit_rest_lt name (c :: rest) whole rest' hm
      simp only [List.length_cons] at hlt
      dsimp only
      rw [replaceAllLitF_congr name val rest.length rest'.length rest' (by omega) (by omega)]
      rfl

/-- `LogScoutServer::substitute_template` (`server.rs`): for each
binding of `field_values` in turn, replace all occurrences of its
placeholder regex by the value string (the value acting as a `regex`
replacement string).  The Rust `HashMap` iteration order is arbitrary;
the embedding processes the association list in order. -/
def substituteTemplate (t : Str) (v : List (Str × Str)) : Str :=
  v.foldl (fun acc kv => replaceAllLit kv.1 kv.2 acc) t

/-- At-head match of the normalizer regex
`\{\{\s*([A-Za-z_][A-Za-z0-9_]*)\s*\}\}` of
`PatternCache::normalize_template_fields` (`cache.rs`); returns the
captured name and the remaining input. -/
def pMatchIdent : Str → Option (Str × Str)
  | '{' :: '{' :: s₁ =>
      match s₁.dropWhile isWs with
      | c :: r₂ =>
          if isIdentStart c then
            match (r₂.dropWhile isIdentChar).dropWhile isWs with
            | '}' :: '}' :: rest => some (c :: r₂.takeWhile isIdentChar, rest)
            | _ => none
          else none
      | [] => none
  | _ => none

/-- The canonical placeholder the normalizer substitutes
(the replacement string is `{{ $1 }}`). -/
def canonPh (n : Str) : Str := '{' :: '{' :: ' ' :: (n ++ [' ', '}', '}'])

/-- A successful `pMatchIdent` consumes at least five characters. -/
theorem pMatchIdent_rest_lt : ∀ (s n rest : Str),
    pMatchIdent s = some (n, rest) → rest.length < s.length := by
  intro s n rest h
  unfold pMatchIdent at h
  split at h
  case h_1 s₁ =>
    split at h
    case h_1 c r₂ heq₁ =>
      split at h
      case isTrue =>
        split at h
        case h_1 rest₀ heq₂ =>
          simp only [Option.some.injEq, Prod.mk.injEq] at h
          obtain ⟨-, hr⟩ := h
          subst hr
          have h1 : (s₁.dropWhile isWs).length ≤ s₁.length := dropWhile_len_le _ _
          rw [heq₁] at h1
          have h2 : (r₂.dropWhile isIdentChar).length ≤ r₂.length := dropWhile_len_le _ _
          have h3 : ((r₂.dropWhile isIdentChar).dropWhile isWs).length ≤
              (r₂.dropWhile isIdentChar).length := dropWhile_len_le _ _
          rw [heq₂] at h3
          simp only [List.length_cons] at h1 h3 ⊢
          omega
        case h_2 => simp at h
      case isFalse => simp at h
    case h_2 => simp at h
  case h_2 => simp at h

/-- Fuelled worker for `normalizeTemplateFields`. -/
def normalizeTemplateFieldsF : Nat → Str → Str
  | _, [] => []
  | 0, s => s
  | fuel + 1, c :: rest =>
      match pMatchIdent (c :: rest) with
      | some (n, rest') => canonPh n ++ normalizeTemplateFieldsF fuel rest'
      | none => c :: normalizeTemplateFieldsF fuel rest

/-- `PatternCache::normalize_template_fields` (`cache.rs`):
`replace_all` of the identifier placeholder regex with `{{ $1 }}`,
i.e. a leftmost non-overlapping scan rewriting every matched
placeholder into the canonical single-space form. -/
def normalizeTemplateFields (s : Str) : Str := normalizeTemplateFieldsF s.length s

/-- The fuelled worker is fuel-irrelevant above the input length. -/
theorem normalizeTemplateFieldsF_congr :
    ∀ (fuel₁ fuel₂ : Nat) (s : Str), s.length ≤ fuel₁ → s.length ≤ fuel₂ →
      normalizeTemplateFieldsF fuel₁ s = normalizeTemplateFieldsF fuel₂ s := by
  intro fuel₁
  induction fuel₁ with
  | zero =>
      intro fuel₂ s h₁ h₂
      have : s = [] := by
        cases s with
        | nil => rfl
        | cons a l => simp at h₁
      subst this
      cases fuel₂ <;> rfl
  | succ f ih =>
      intro fuel₂ s h₁ h₂
      cases s with
      | nil => cases fuel₂ <;> rfl
      | cons c rest =>
          cases fuel₂ with
          | zero => simp at h₂
          | succ f₂ =>
              show (match pMatchIdent (c :: rest) with
                | some (n, rest') => canonPh n ++ normalizeTemplateFieldsF f rest'
                | none => c :: normalizeTemplateFieldsF f rest) =
                (match pMatchIdent (c :: rest) with
                | some (n, rest') => canonPh n ++ normalizeTemplateFieldsF f₂ rest'
                | none => c :: normalizeTemplateFieldsF f₂ rest)
              cases hm : pMatchIdent (c :: rest) with
              | none =>
                  simp only [List.length_cons] at h₁ h₂
                  dsimp only
                  rw [ih f₂ rest (by omega) (by omega)]
              | some p =>
                  obtain ⟨n, rest'⟩ := p
                  have hlt := pMatchIdent_rest_lt (c :: rest) n rest' hm
                  simp only [List.length_cons] at h₁ h₂ hlt
                  dsimp only
                  rw [ih f₂ rest' (by omega) (by omega)]

/-- Step equation of `normalizeTemplateFields` on a non-empty input. -/
theorem normalizeTemplateFields_cons (c : Char) (rest : Str) :
    normalizeTemplateFields (c :: rest) =
      (match pMatchIdent (c :: rest) with
      | some (n, rest') => canonPh n ++ normalizeTemplateFields rest'
      | none => c :: normalizeTemplateFields rest) := by
  show (match pMatchIdent (c :: rest) with
    | some (n, rest') => canonPh n ++ normalizeTemplateFieldsF rest.length rest'
    | none => c :: normalizeTemplateFieldsF rest.length rest) = _
  cases hm : pMatchIdent (c :: rest) with
  | none => rfl
  | some p =>
      obtain ⟨n, rest'⟩ := p
      have hlt := pMatchIdent_rest_lt (c :: rest) n rest' hm
      simp only [List.length_cons] at hlt
      dsimp only
      rw [normalizeTemplateFieldsF_congr rest.length rest'.length rest' (by omega) (by omega)]
      rfl

/-- Rust `str::trim` (whitespace at both ends). -/
def trimStr (s : Str) : Str :=
  ((s.dropWhile isWs).reverse.dropWhile isWs).reverse

/-- `CacheSource` struct of `cache.rs`. -/
structure CacheSource where
  connectionInfo : Str
  database : Str
  collection : Str
deriving DecidableEq, Repr

/-- `CacheMetadata` struct of `cache.rs`; `DateTime<Utc>` values are
embedded as abstract clock readings (`Nat`). -/
structure CacheMetadata where
  version : Str
  createdAt : Nat
  lastUpdated : Nat
  patternCount : Nat
  ttlSeconds : Nat
  source : CacheSource
  products : List Str
  categories : List Str
deriving DecidableEq, Repr

/-- `CachedPattern` struct of `cache.rs`. -/
structure CachedPattern where
  annot : TagScoutAnnot
  pattern : Pattern
  cachedAt : Nat
  checksum : Str
deriving DecidableEq, Repr

/-- `PatternCache` struct of `cache.rs`; the `HashMap<String,
CachedPattern>` is embedded as an association list with unique keys. -/
structure PatternCache where
  metadata : CacheMetadata
  patterns : List (Str × CachedPattern)
deriving DecidableEq, Repr

/-- `PatternCache::calculate_checksum` hashes `(regexes, severity,
template)` with `DefaultHasher`; the embedding keeps the hashed tuple
itself as the digest (all the code needs is a deterministic function of
those three fields). -/
def calculateChecksum (a : TagScoutAnnot) : Str :=
  a.regexes.flatten ++ a.severity ++ a.template

/-- `HashMap::insert` for the cache map. -/
def insertCP (l : List (Str × CachedPattern)) (k : Str) (v : CachedPattern) :
    List (Str × CachedPattern) :=
  match l with
  | [] => [(k, v)]
  | (k', v') :: rest => if k' = k then (k, v) :: rest else (k', v') :: insertCP rest k v

/-- Byte-lexicographic order on strings (Rust `Ord` for `String`;
identical to scalar-value order on the ASCII data involved). -/
def strLe : Str → Str → Bool
  | [], _ => true
  | _ :: _, [] => false
  | a :: x, b :: y => if a = b then strLe x y else decide (a.toNat < b.toNat)

/-- Stable insertion used by the sorts below. -/
def insOrd {α : Type} (le : α → α → Bool) (a : α) : List α → List α
  | [] => [a]
  | b :: l => if le a b then a :: b :: l else b :: insOrd le a l

/-- Stable insertion sort; extensionally equal to the stable sorts used
by the source (`Vec::sort_by_key`, `Vec::sort`). -/
def isortBy {α : Type} (le : α → α → Bool) : List α → List α
  | [] => []
  | a :: l => insOrd le a (isortBy le l)

/-- `PatternCache::update_metadata` (`cache.rs`): refresh
`last_updated` and `pattern_count`, fix `products` to `["jabber"]`, and
rebuild the sorted, de-duplicated, non-empty category list from the
cached annotations. -/
def updateMetadata (c : PatternCache) (now : Nat) : PatternCache :=
  let cats := ((c.patterns.map (fun kv => kv.2.annot.category)).flatten.filter
    (fun s => s ≠ []))
  { c with metadata :=
    { c.metadata with
      lastUpdated := now
      patternCount := c.patterns.length
      products := [[ 'j', 'a', 'b', 'b', 'e', 'r' ]]
      categories := (isortBy strLe cats).dedup } }

/-- `PatternCache::normalize_parameters` (`cache.rs`): trim names and
regexes, preserving case. -/
def normalizeParameters (ps : List ParameterExtractor) : List ParameterExtractor :=
  ps.map (fun p => { name := trimStr p.name, regex := trimStr p.regex })

/-- `PatternCache::add_pattern` (`cache.rs`): normalize the template
fields and parameter extractors, trim the primary regex, compute the
checksum, insert keyed by pattern id, and update the metadata.
`Utc::now` is passed in as `now`. -/
def addPattern (c : PatternCache) (a : TagScoutAnnot) (p : Pattern) (now : Nat) :
    PatternCache :=
  let p' := { p with
    annotationText := normalizeTemplateFields p.annotationText
    category := normalizeTemplateFields p.category
    parameterExtractors := normalizeParameters p.parameterExtractors
    pattern := trimStr p.pattern }
  let cached : CachedPattern :=
    { annot := a, pattern := p', cachedAt := now, checksum := calculateChecksum a }
  updateMetadata { c with patterns := insertCP c.patterns cached.pattern.id cached } now

/-- `PatternCache::get_pattern`. -/
def getPattern (c : PatternCache) (id : Str) : Option CachedPattern :=
  lookupA c.patterns id

/-- The parts of the LSP `Diagnostic` built by
`LogScoutServer::detection_to_diagnostic` (`server.rs`): the range, the
numeric severity, code, source and message, and the detection-specific
entries of the `data` payload (the pass-through copy of the serialized
annotation metadata is not re-modelled). -/
structure Diagnostic where
  rangeStartLine : Nat
  rangeStartChar : Nat
  rangeEndLine : Nat
  rangeEndChar : Nat
  severity : Nat
  code : Str
  source : Str
  message : Str
  dataTemplate : Str
  dataMergedTemplate : Str
  dataLogLine : Str
  dataCategory : Str
  dataPatternId : Str
  dataPatternName : Str
  dataMatchedText : Str
  dataPatternRegex : Str
  dataTimestamp : Option Str
  dataLogLevel : Option LogLevel
deriving DecidableEq, Repr

/-- The `"(missing)"` template placeholder of
`detection_to_diagnostic`. -/
def missingStr : Str := ['(', 'm', 'i', 's', 's', 'i', 'n', 'g', ')']

/-- `LogScoutServer::detection_to_diagnostic` (`server.rs`).  Note that
the source maps `detection.pattern.severity` — the pattern's *default*
severity — to the LSP severity, not `detection.final_severity`. -/
def detectionToDiagnostic (d : Detection) : Diagnostic :=
  let category := substituteTemplate d.pattern.category d.fieldValues
  let template :=
    if d.pattern.annotationText = [] then missingStr else d.pattern.annotationText
  let mergedTemplate :=
    if template = missingStr then template else substituteTemplate template d.fieldValues
  { rangeStartLine := d.lineNumber
    rangeStartChar := d.columnRange.1
    rangeEndLine := d.lineNumber
    rangeEndChar := d.columnRange.2
    severity := severityToLsp d.pattern.severity
    code := d.pattern.id
    source := [ 'l', 'o', 'g', '-', 's', 'c', 'o', 'u', 't' ]
    message := mergedTemplate
    dataTemplate := template
    dataMergedTemplate := mergedTemplate
    dataLogLine := d.context.headD []
    dataCategory := category
    dataPatternId := d.pattern.id
    dataPatternName := d.pattern.name
    dataMatchedText := d.matchedText
    dataPatternRegex := d.pattern.pattern
    dataTimestamp := d.timestamp
    dataLogLevel := d.logLevel }

/-- The grouping key of `deduplicate_detections`:
`(line_number, column_range)`. -/
def detKey (d : Detection) : Nat × (Nat × Nat) := (d.lineNumber, d.columnRange)

/-- One step of the grouping loop of `deduplicate_detections`: append
`d` to its key's group (the Rust code groups through a `HashMap` whose
iteration order is arbitrary; the embedding keeps groups in
first-occurrence order, every group in insertion order — the insertion
order within each group is what the code's stable sort observes). -/
def addToGroups (gs : List ((Nat × (Nat × Nat)) × List Detection)) (d : Detection) :
    List ((Nat × (Nat × Nat)) × List Detection) :=
  match gs with
  | [] => [(detKey d, [d])]
  | (k, g) :: rest =>
      if k = detKey d then (k, g ++ [d]) :: rest else (k, g) :: addToGroups rest d

/-- The grouping pass of `deduplicate_detections`. -/
def groupsBy (ds : List Detection) : List ((Nat × (Nat × Nat)) × List Detection) :=
  ds.foldl addToGroups []

/-- Severity-rank comparison used by the per-group sort. -/
def rankLe (a b : Detection) : Bool :=
  severityRank a.finalSeverity ≤ severityRank b.finalSeverity

/-- Line-number comparison used by the final sort. -/
def lineLe (a b : Detection) : Bool := a.lineNumber ≤ b.lineNumber

/-- The per-group body of `deduplicate_detections`: a singleton group
keeps its element (`group.pop()`), a larger group is stable-sorted by
severity rank and its first element kept. -/
def pickGroup (kg : (Nat × (Nat × Nat)) × List Detection) : Option Detection :=
  if kg.2.length = 1 then kg.2.head? else (isortBy rankLe kg.2).head?

/-- `LogScoutServer::deduplicate_detections` (`server.rs`): group by
`(line_number, column_range)`; keep a singleton group's element as is,
otherwise stable-sort the group by severity rank and keep the first
element; finally stable-sort the survivors by line number. -/
def deduplicateDetections (ds : List Detection) : List Detection :=
  isortBy lineLe ((groupsBy ds).filterMap pickGroup)

/-- `ContextProcessor` struct of `pattern_engine.rs`; the `VecDeque`
ring buffer is embedded as a list whose head is the deque front. -/
structure ContextProcessor where
  contextBuffer : List Str
  maxWindow : Nat
  currentLine : Nat
deriving DecidableEq, Repr

/-- `ContextProcessor::new`. -/
def ContextProcessor.new (maxWindow : Nat) : ContextProcessor :=
  { contextBuffer := [], maxWindow := maxWindow, currentLine := 0 }

/-- `ContextProcessor::push_line`: pop the front when the buffer is at
(or beyond) capacity, push at the back, bump the line counter. -/
def ContextProcessor.pushLine (cp : ContextProcessor) (line : Str) : ContextProcessor :=
  let buf :=
    if cp.contextBuffer.length ≥ cp.maxWindow then cp.contextBuffer.tail
    else cp.contextBuffer
  { cp with contextBuffer := buf ++ [line], currentLine := cp.currentLine + 1 }

/-- `ContextProcessor::get_context`: the last `min(lines, len)` buffer
entries in order (`skip(len.saturating_sub(lines))`). -/
def ContextProcessor.getContext (cp : ContextProcessor) (lines : Nat) : List Str :=
  cp.contextBuffer.drop (cp.contextBuffer.length - lines)

/-- `ContextProcessor::reset`. -/
def ContextProcessor.reset (cp : ContextProcessor) : ContextProcessor :=
  { cp with contextBuffer := [], currentLine := 0 }

/-- String-literal helper: the character list of a Lean string
literal. -/
def strL (s : String) : Str := s.data

/-- `ConversionError` enum of `converter.rs`. -/
inductive ConversionError where
  | InvalidPattern (msg : Str)
  | InvalidSeverity (msg : Str)
  | MissingField (msg : Str)
  | ConversionFailed (msg : Str)
deriving DecidableEq, Repr

/-- `ConverterConfig` struct of `converter.rs`. -/
structure ConverterConfig where
  convertMultiline : Bool
  defaultContextWindow : Nat
  validateRegex : Bool
  includeInactive : Bool
  severityMapping : Option (List (Str × Severity))
  productServiceMapping : Option (List (Str × Str))
deriving DecidableEq, Repr

/-- `ConverterConfig::default`. -/
def ConverterConfig.default : ConverterConfig :=
  { convertMultiline := true
    defaultContextWindow := 10
    validateRegex := true
    includeInactive := false
    severityMapping := none
    productServiceMapping := none }

/-- At-head match of the named-group regex `\(\?P<([^>]+)>` of
`PatternConverter::extract_capture_fields`. -/
def pCapName : Str → Option (Str × Str)
  | '(' :: '?' :: 'P' :: '<' :: rest =>
      match rest.dropWhile (fun c => c ≠ '>') with
      | '>' :: rest' =>
          if rest.takeWhile (fun c => c ≠ '>') = [] then none
          else some (rest.takeWhile (fun c => c ≠ '>'), rest')
      | _ => none
  | _ => none

/-- A successful `pCapName` consumes at least five characters. -/
theorem pCapName_rest_lt : ∀ (s nm rest : Str),
    pCapName s = some (nm, rest) → rest.length < s.length := by
  intro s nm rest h
  unfold pCapName at h
  split at h
  case h_1 r =>
    split at h
    case h_1 rest₀ heq =>
      split at h
      case isTrue => simp at h
      case isFalse =>
        simp only [Option.some.injEq, Prod.mk.injEq] at h
        obtain ⟨-, hr⟩ := h
        subst hr
        have h1 : (r.dropWhile (fun c => c ≠ '>')).length ≤ r.length := dropWhile_len_le _ _
        rw [heq] at h1
        simp only [List.length_cons] at h1 ⊢
        omega
    case h_2 => simp at h
  case h_2 => simp at h

/-- `PatternConverter::extract_capture_fields` (`converter.rs`): the
names of all `(?P<name>` groups, in order of occurrence. -/
def extractCaptureFieldsF : Nat → Str → List Str
  | _, [] => []
  | 0, _ => []
  | fuel + 1, c :: rest =>
      match pCapName (c :: rest) with
      | some (nm, rest') => nm :: extractCaptureFieldsF fuel rest'
      | none => extractCaptureFieldsF fuel rest

/-- Entry point (fuel at least the input length computes the scan). -/
def extractCaptureFields (s : Str) : List Str := extractCaptureFieldsF s.length s

/-- Fuelled worker for `splitWs`. -/
def splitWsF : Nat → Str → List Str
  | 0, _ => []
  | fuel + 1, s =>
      match s.dropWhile isWs with
      | [] => []
      | c :: r =>
          (c :: r.takeWhile (fun x => ¬ isWs x)) ::
            splitWsF fuel (r.dropWhile (fun x => ¬ isWs x))

/-- Rust `str::split_whitespace`: maximal non-whitespace runs (fuel at
least the input length computes the scan). -/
def splitWs (s : Str) : List Str := splitWsF (s.length + 1) s

/-- `join(" ")` over word lists. -/
def intercalateSp (ps : List Str) : Str := (ps.intersperse [' ']).flatten

/-- ASCII lower-casing (models `str::to_lowercase` on the ASCII
severity labels involved). -/
def downcaseChar (c : Char) : Char :=
  if 'A' ≤ c ∧ c ≤ 'Z' then Char.ofNat (c.toNat + 32) else c

def downcase (s : Str) : Str := s.map downcaseChar

/-- The fixed severity-label mapping of
`PatternConverter::convert_severity`; unrecognized labels default to
`Info` (with a warning log).  The Rust signature is fallible but every
path returns `Ok`. -/
def defaultSeverityMap (s : Str) : Severity :=
  let l := downcase s
  if l = strL ("error") ∨ l = strL ("critical") ∨ l = strL ("fatal") ∨
      l = strL ("severe") then .Error
  else if l = strL ("warning") ∨ l = strL ("warn") ∨ l = strL ("caution") then .Warning
  else if l = strL ("info") ∨ l = strL ("information") ∨ l = strL ("notice") then .Info
  else if l = strL ("hint") ∨ l = strL ("debug") ∨ l = strL ("trace") ∨
      l = strL ("verbose") then .Hint
  else .Info

/-- `PatternConverter::convert_severity`: the custom mapping first,
then the default mapping. -/
def convertSeverity (cfg : ConverterConfig) (s : Str) : Severity :=
  match cfg.severityMapping with
  | some m =>
      match lookupA m s with
      | some sev => sev
      | none => defaultSeverityMap s
  | none => defaultSeverityMap s

/-- `PatternConverter::determine_pattern_mode`: multi-line when the
regex contains the two-character sequence `\n`, or `(?s)`, or `(?m)`,
and multi-line conversion is enabled. -/
def determinePatternMode (cfg : ConverterConfig) (pat : Str) : PatternMode :=
  if ¬ cfg.convertMultiline then .SingleLine
  else if containsSub pat ['\\', 'n'] ∨ containsSub pat ['(', '?', 's', ')'] ∨
      containsSub pat ['(', '?', 'm', ')'] then
    .MultiLine cfg.defaultContextWindow
  else .SingleLine

/-- `PatternConverter::build_name` (`converter.rs`). The Rust
truncation `&name_part[..50]` is a byte slice; the embedding truncates
at 50 characters (identical on ASCII data). -/
def buildName (a : TagScoutAnnot) : Str :=
  if a.rawData ≠ [] then
    if (splitWs a.rawData).length > 3 then
      let namePart := intercalateSp (((splitWs a.rawData).drop 3).take 5)
      if namePart.length > 50 then namePart.take 50 ++ ['.', '.', '.']
      else namePart
    else a.rawData.take 50
  else if a.template ≠ [] then a.template.take 50
  else
    match a.regexes.head? with
    | some r => r.take 50
    | none => strL ("Pattern ") ++ a.id

/-- `PatternConverter::convert` (`converter.rs`).  `rvalid` is the
embedding of `Regex::new` success on the primary pattern
(`validate_pattern`); the `InvalidPattern` payload carries the pattern
string (the Rust message also appends the library's error text). -/
def convert (cfg : ConverterConfig) (rvalid : Str → Bool) (a : TagScoutAnnot)
    (product : Option Str) : Except ConversionError Pattern :=
  if ¬ a.production ∧ ¬ cfg.includeInactive then
    .error (.ConversionFailed (strL ("Pattern is not production-ready")))
  else if a.content then
    .error (.ConversionFailed (strL ("Content annotation")))
  else
    match a.regexes.head? with
    | none => .error (.MissingField (strL ("regexes")))
    | some pat =>
        if cfg.validateRegex ∧ ¬ rvalid pat then .error (.InvalidPattern pat)
        else
          .ok
            { id := a.id
              name := buildName a
              annotationText :=
                if a.template ≠ [] then a.template
                else if a.rawData ≠ [] then
                  strL ("Pattern matching: ") ++ a.rawData.take 100
                else strL ("TagScout pattern")
              pattern := pat
              mode := determinePatternMode cfg pat
              severity := convertSeverity cfg a.severity
              category := (a.category.head?).getD []
              service := product
              tags := a.category
              action := if a.documentation ≠ [] then some a.documentation else none
              expectedFrequency := none
              enabled := a.production
              logLevelTriggers := []
              conditionTriggers := []
              captureFields := extractCaptureFields pat
              parameterExtractors := a.parameters.map (fun p => ⟨p.name, p.regex⟩)
              tagscoutMetadata := some a }

/-- `PatternConverter::convert_batch_with_products` (`converter.rs`):
convert each `(product, annotation)` pair, keep the successes in order,
accumulate the failures only into a warning log, and always return
`Ok`. -/
def convertBatchWithProducts (cfg : ConverterConfig) (rvalid : Str → Bool)
    (anns : List (Str × TagScoutAnnot)) : Except ConversionError (List Pattern) :=
  .ok (anns.filterMap (fun pa => (convert cfg rvalid pa.2 (some pa.1)).toOption))

/-- `CacheError` enum of `cache.rs`. -/
inductive CacheError where
  | IoError (msg : Str)
  | SerializationError (msg : Str)
  | CacheExpired
  | CacheNotFound
  | InvalidFormat (msg : Str)
deriving DecidableEq, Repr

/-- `IntegrationError` enum of `tagscout/mod.rs`. -/
inductive IntegrationError where
  | ClientError (msg : Str)
  | CacheErr (e : CacheError)
  | ConversionErr (e : ConversionError)
  | SyncError (msg : Str)
  | NotInitialized
deriving DecidableEq, Repr

/-- `SyncMode` enum of `tagscout/mod.rs`. -/
inductive SyncMode where
  | OfflineOnly
  | OnlineFirst
  | CacheFirst
  | AlwaysOnline
deriving DecidableEq, Repr

/-- `SyncResult` struct of `tagscout/mod.rs`. -/
structure SyncResult where
  patternsFetched : Nat
  patternsCached : Nat
  fromCache : Bool
  durationMs : Nat
  warnings : List Str
deriving DecidableEq, Repr

/-- `CacheManager::load_or_create` (`cache.rs`), with the disk read
passed in as `loadRes` and the freshly created empty cache as `fresh`:
`CacheNotFound` materializes `fresh`, any other error propagates. -/
def loadOrCreate (loadRes : Except CacheError PatternCache) (fresh : PatternCache) :
    Except CacheError PatternCache :=
  match loadRes with
  | .ok c => .ok c
  | .error .CacheNotFound => .ok fresh
  | .error e => .error e

/-- `SyncService::sync_from_cache` (`tagscout/mod.rs`): load or create
the cache and report its `pattern_count` as both fetched and cached,
`from_cache = true` (duration and warnings are filled by `sync`). -/
def syncFromCache (loadRes : Except CacheError PatternCache) (fresh : PatternCache) :
    Except IntegrationError SyncResult :=
  match loadOrCreate loadRes fresh with
  | .error e => .error (.CacheErr e)
  | .ok c =>
      .ok
        { patternsFetched := c.metadata.patternCount
          patternsCached := c.metadata.patternCount
          fromCache := true
          durationMs := 0
          warnings := [] }

/-- The warning pushed by `sync` when an `OnlineFirst` remote fetch
fails (the Rust text interpolates the error). -/
def warnUsingCache : Str :=
  strL ("MongoDB sync failed, using cache")

/-- The warning pushed by `sync` when a `CacheFirst` remote fetch
fails. -/
def warnUsingStaleCache : Str :=
  strL ("MongoDB sync failed, using stale cache")

/-- `SyncService::sync` (`tagscout/mod.rs`) with its I/O outcomes
passed in: `mongoRes` is the result of `sync_from_mongodb`, `loadRes`
that of the cache read underlying `sync_from_cache`, `cacheValid` the
`is_cache_valid` probe, and `durationMs` the measured duration.  The
inner result's duration and warnings are overwritten with the measured
duration and the warnings collected by the policy, exactly as in the
source. -/
def syncPolicy (mode : SyncMode) (cacheValid : Bool)
    (mongoRes : Except IntegrationError SyncResult)
    (loadRes : Except CacheError PatternCache) (fresh : PatternCache)
    (durationMs : Nat) : Except IntegrationError SyncResult :=
  let finish : Except IntegrationError SyncResult → List Str →
      Except IntegrationError SyncResult := fun res warnings =>
    res.map (fun r => { r with durationMs := durationMs, warnings := warnings })
  match mode with
  | .OfflineOnly => finish (syncFromCache loadRes fresh) []
  | .AlwaysOnline => finish mongoRes []
  | .OnlineFirst =>
      match mongoRes with
      | .ok r => finish (.ok r) []
      | .error _ => finish (syncFromCache loadRes fresh) [warnUsingCache]
  | .CacheFirst =>
      if cacheValid then finish (syncFromCache loadRes fresh) []
      else
        match mongoRes with
        | .ok r => finish (.ok r) []
        | .error _ => finish (syncFromCache loadRes fresh) [warnUsingStaleCache]

/-- `captures_iter` of a compiled *literal* regex: leftmost
non-overlapping occurrences of the literal, with no capture groups
beyond group 0 (used to instantiate the abstract regex of a
`CompiledPattern` at concrete scenario patterns such as
`"connection"`). -/
def litCapsF (pat : Str) : Nat → Str → Nat → List MatchCap
  | _, [], _ => []
  | 0, _, _ => []
  | fuel + 1, c :: r, i =>
      if pat ≠ [] ∧ pat.isPrefixOf (c :: r) then
        { start := i, stop := i + pat.length, text := pat, named := [], positional := [] } ::
          litCapsF pat fuel ((c :: r).drop pat.length) (i + pat.length)
      else litCapsF pat fuel r (i + 1)

/-- A literal regex as the `capturesIter` field of a
`CompiledPattern`. -/
def litCapturesIter (pat : Str) (s : Str) : List MatchCap := litCapsF pat s.length s 0

/-- The scenario pattern of spec §8 scenario 2: default severity
`Info`, `log_level_triggers = {ERROR: Error}`, regex `"connection"`. -/
def c1Pattern : Pattern :=
  { id := strL ("p-loglevel")
    name := strL ("connection")
    annotationText := strL ("connection event")
    pattern := strL ("connection")
    mode := .SingleLine
    severity := .Info
    category := []
    service := none
    tags := []
    action := none
    expectedFrequency := none
    enabled := true
    logLevelTriggers := [(.ERROR, .Error)]
    conditionTriggers := []
    captureFields := []
    parameterExtractors := []
    tagscoutMetadata := none }

/-- The compiled scenario pattern. -/
def c1Compiled : CompiledPattern :=
  { pattern := c1Pattern
    capturesIter := litCapturesIter (strL ("connection"))
    captureNames := []
    paramRegexes := [] }

/-- The scenario input line. -/
def c1Line : Str := strL ("2024-01-01 ERROR connection dropped")

/-- C1 (code bug): on the spec's log-level-override scenario the
engine computes `final_severity = Error` (the `{ERROR: Error}` trigger
fires), yet `detection_to_diagnostic` maps `pattern.severity` — the
`Info` default — so the published LSP severity is `3` (Information)
instead of `severityToLsp final_severity = 1` (Error) as the spec's
`severity ← final_severity` rule requires. -/
theorem c1_diagnostic_severity_ignores_final_severity :
    ((processLine (fun _ => none) [c1Compiled] c1Line 0).map
        (fun d => (d.finalSeverity, d.logLevel, (detectionToDiagnostic d).severity))) =
      [(Severity.Error, some LogLevel.ERROR, 3)] ∧
    severityToLsp Severity.Error = 1 := by
  exact ⟨by decide, rfl⟩

/-- `analyze_text` drives `push_line` over a document; a call sequence
is embedded as a fold. -/
def applyPushes (cp : ContextProcessor) (lines : List Str) : ContextProcessor :=
  lines.foldl ContextProcessor.pushLine cp

/-- C9 counterexample: with window `k = 0` the claimed bounds fail —
after one `push_line` the buffer holds one line (`pop_front` on the
empty buffer is a no-op and the line is still pushed), and
`get_context 1` returns one line although `min 1 0 = 0`. -/
theorem c9_context_window_counterexample :
    (((ContextProcessor.new 0).pushLine (strL ("a"))).contextBuffer.length = 1 ∧
      ¬ ((ContextProcessor.new 0).pushLine (strL ("a"))).contextBuffer.length ≤ 0) ∧
    ((((ContextProcessor.new 0).pushLine (strL ("a"))).getContext 1).length = 1 ∧
      ¬ ((((ContextProcessor.new 0).pushLine (strL ("a"))).getContext 1).length ≤
        min 1 0)) := by
  refine ⟨⟨rfl, ?_⟩, rfl, ?_⟩ <;> decide

/-- `push_line` preserves the window size. -/
theorem pushLine_maxWindow (cp : ContextProcessor) (l : Str) :
    (cp.pushLine l).maxWindow = cp.maxWindow := rfl

/-- `push_line` keeps the buffer within `max k 1` lines. -/
theorem pushLine_buffer_le (cp : ContextProcessor) (l : Str)
    (h : cp.contextBuffer.length ≤ max cp.maxWindow 1) :
    (cp.pushLine l).contextBuffer.length ≤ max cp.maxWindow 1 := by
  unfold ContextProcessor.pushLine
  split
  · rename_i hge
    simp only [List.length_append, List.length_tail, List.length_cons, List.length_nil]
    omega
  · rename_i hlt
    simp only [List.length_append, List.length_cons, List.length_nil]
    omega

/-- Any push sequence keeps the buffer within `max k 1` lines. -/
theorem applyPushes_buffer_le (lines : List Str) (cp : ContextProcessor)
    (h : cp.contextBuffer.length ≤ max cp.maxWindow 1) :
    (applyPushes cp lines).contextBuffer.length ≤ max (applyPushes cp lines).maxWindow 1 ∧
    (applyPushes cp lines).maxWindow = cp.maxWindow := by
  induction lines generalizing cp with
  | nil => exact ⟨h, rfl⟩
  | cons l rest ih =>
      have hstep := pushLine_buffer_le cp l h
      have := ih (cp.pushLine l) hstep
      simpa [applyPushes, pushLine_maxWindow] using this

/-- C9 amended: for every window `k` and push sequence, the buffer
holds at most `max k 1` lines and `get_context j` returns at most
`min j (max k 1)` lines (for `k ≥ 1` these are the claimed `k` and
`min j k`; the `k = 0` construction forces the `max k 1` correction),
and `reset` clears the counter and the buffer. -/
theorem c9_context_window_amended (k : Nat) (lines : List Str) (j : Nat) :
    ((applyPushes (ContextProcessor.new k) lines).contextBuffer.length ≤ max k 1) ∧
    (((applyPushes (ContextProcessor.new k) lines).getContext j).length ≤ min j (max k 1)) ∧
    ((applyPushes (ContextProcessor.new k) lines).reset.currentLine = 0) ∧
    ((applyPushes (ContextProcessor.new k) lines).reset.contextBuffer = []) := by
  have h0 : (ContextProcessor.new k).contextBuffer.length ≤
      max (ContextProcessor.new k).maxWindow 1 := by
    simp [ContextProcessor.new]
  obtain ⟨hlen, hwin⟩ := applyPushes_buffer_le lines (ContextProcessor.new k) h0
  rw [hwin] at hlen
  have hw : (ContextProcessor.new k).maxWindow = k := rfl
  rw [hw] at hlen
  refine ⟨hlen, ?_, rfl, rfl⟩
  unfold ContextProcessor.getContext
  rw [List.length_drop]
  omega

/-- C7: in `OnlineFirst` mode, when the remote fetch fails and the
cache loads successfully, `sync` succeeds with `from_cache = true`,
`patterns_fetched` equal to the cache's pattern count, and a non-empty
warning list. -/
theorem c7_online_first_cache_fallback (e : IntegrationError)
    (loadRes : Except CacheError PatternCache) (c fresh : PatternCache)
    (cv : Bool) (dur : Nat) (hload : loadRes = .ok c) :
    ∃ r, syncPolicy .OnlineFirst cv (.error e) loadRes fresh dur = .ok r ∧
      r.fromCache = true ∧
      r.patternsFetched = c.metadata.patternCount ∧
      r.warnings ≠ [] := by
  subst hload
  refine ⟨_, rfl, rfl, rfl, ?_⟩
  simp [warnUsingCache]

/-- A 42-pattern cache for the C7 scenario (only the metadata counter
matters to `sync_from_cache`). -/
def c7Cache : PatternCache :=
  { metadata :=
      { version := strL ("0.1.0")
        createdAt := 0
        lastUpdated := 0
        patternCount := 42
        ttlSeconds := 3600
        source := { connectionInfo := [], database := [], collection := [] }
        products := []
        categories := [] }
    patterns := [] }

/-- C7 witness: with a valid 42-pattern cache, the `OnlineFirst`
fallback reports `patterns_fetched = 42`, `from_cache = true` and a
warning. -/
theorem c7_online_first_cache_fallback_witness :
    ∃ r, syncPolicy .OnlineFirst false
        (.error (.ClientError (strL ("RemoteUnavailable")))) (.ok c7Cache) c7Cache 5 =
        .ok r ∧
      r.fromCache = true ∧ r.patternsFetched = 42 ∧ r.warnings ≠ [] := by
  obtain ⟨r, h1, h2, h3, h4⟩ :=
    c7_online_first_cache_fallback (.ClientError (strL ("RemoteUnavailable")))
      (.ok c7Cache) c7Cache c7Cache false 5 rfl
  exact ⟨r, h1, h2, h3, h4⟩

/-- The condition-trigger loop returns the first matching trigger's
severity (a `find?` characterization of the loop). -/
theorem evalCondTriggers_eq_find (rc : RegexComp) (fv : List (Str × Str))
    (ts : List SeverityTrigger) (dflt : Severity) :
    evalCondTriggers rc fv ts dflt =
      (match ts.find? (condHolds rc fv) with
      | some t => t.severity
      | none => dflt) := by
  induction ts with
  | nil => rfl
  | cons t ts ih =>
      rw [List.find?_cons]
      cases hc : condHolds rc fv t with
      | true => simp [evalCondTriggers, hc]
      | false => simp [evalCondTriggers, hc, ih]

/-- C4: `evaluate_severity` returns the log-level trigger's severity
when the detected level is a trigger key; otherwise the severity of the
first condition trigger (in list order) whose condition holds; otherwise
the default severity — and `GreaterThan`/`LessThan` triggers never hold
when either side fails to parse as a number. -/
theorem c4_evaluate_severity_spec (rc : RegexComp) (p : Pattern) (lvl : Option LogLevel)
    (fv : List (Str × Str)) :
    (∀ l s, lvl = some l → lookupA p.logLevelTriggers l = some s →
      evaluateSeverity rc p lvl fv = s) ∧
    ((match lvl with
      | none => True
      | some l => lookupA p.logLevelTriggers l = none) →
      evaluateSeverity rc p lvl fv =
        (match p.conditionTriggers.find? (condHolds rc fv) with
        | some t => t.severity
        | none => p.severity)) ∧
    (∀ t v, lookupA fv t.field = some v →
      (t.operator = .GreaterThan ∨ t.operator = .LessThan) →
      (parseDec v = none ∨ parseDec t.value = none) →
      condHolds rc fv t = false) := by
  refine ⟨?_, ?_, ?_⟩
  · intro l s hl hs
    subst hl
    unfold evaluateSeverity
    dsimp only
    rw [hs]
  · intro h
    cases lvl with
    | none =>
        unfold evaluateSeverity
        exact evalCondTriggers_eq_find rc fv p.conditionTriggers p.severity
    | some l =>
        unfold evaluateSeverity
        dsimp only at h ⊢
        rw [h]
        exact evalCondTriggers_eq_find rc fv p.conditionTriggers p.severity
  · intro t v hv hop hparse
    unfold condHolds
    rw [hv]
    dsimp only
    rcases hop with hgt | hlt
    · rw [hgt]
      rcases hparse with hp | hp
      · rw [hp]
      · rw [hp]
        cases parseDec v <;> rfl
    · rw [hlt]
      rcases hparse with hp | hp
      · rw [hp]
      · rw [hp]
        cases parseDec v <;> rfl

/-- The condition trigger of spec §8 scenario 3:
`{field: code, op: GreaterThan, value: "500", severity: Error}`. -/
def c4Trigger : SeverityTrigger :=
  { field := strL ("code")
    operator := .GreaterThan
    value := strL ("500")
    severity := .Error
    description := none }

/-- A pattern with default severity `Warning` and the scenario-3
condition trigger. -/
def c4Pattern : Pattern :=
  { c1Pattern with
    id := strL ("p-condition")
    severity := .Warning
    logLevelTriggers := []
    conditionTriggers := [c4Trigger] }

/-- C4 witness: with `code = "503"` the `GreaterThan 500` trigger fires
and the severity is `Error`; with the non-numeric `code = "oops"` the
trigger never holds. -/
theorem c4_evaluate_severity_witness :
    evaluateSeverity (fun _ => none) c4Pattern none [(strL ("code"), strL ("503"))] =
      .Error ∧
    condHolds (fun _ => none) [(strL ("code"), strL ("oops"))] c4Trigger = false := by
  constructor
  · have h := (c4_evaluate_severity_spec (fun _ => none) c4Pattern none
      [(strL ("code"), strL ("503"))]).2.1 trivial
    rw [h]
    decide
  · exact (c4_evaluate_severity_spec (fun _ => none) c4Pattern none
      [(strL ("code"), strL ("oops"))]).2.2 c4Trigger (strL ("oops"))
      (by decide) (Or.inl rfl) (Or.inl (by decide))

/-- Inserting a key makes it the looked-up value. -/
theorem lookupA_insertA_self (l : List (Str × Str)) (k v : Str) :
    lookupA (insertA l k v) k = some v := by
  induction l with
  | nil => simp [insertA, lookupA]
  | cons p rest ih =>
      obtain ⟨k', v'⟩ := p
      unfold insertA
      by_cases h : k' = k
      · simp [h, lookupA]
      · simp only [if_neg h]
        unfold lookupA at ih ⊢
        rw [List.find?_cons]
        have : (decide (k' = k)) = false := by simpa using h
        simp only [this]
        exact ih

/-- Inserting a different key leaves a lookup unchanged. -/
theorem lookupA_insertA_ne (l : List (Str × Str)) (k v k' : Str) (h : k' ≠ k) :
    lookupA (insertA l k v) k' = lookupA l k' := by
  have hkk : (decide (k = k')) = false := by simpa using fun e => h e.symm
  induction l with
  | nil =>
      simp [insertA, lookupA, List.find?_cons, hkk]
  | cons p rest ih =>
      obtain ⟨k₀, v₀⟩ := p
      unfold insertA
      by_cases hk : k₀ = k
      · subst hk
        unfold lookupA
        simp only [if_pos rfl, List.find?_cons]
        simp [hkk]
      · simp only [if_neg hk]
        unfold lookupA at ih ⊢
        simp only [List.find?_cons]
        cases hd : decide (k₀ = k') with
        | true => rfl
        | false => exact ih

/-- Folding parameter extractors none of which is named `n` does not
change the value recorded for `n`. -/
theorem foldl_paramStep_skip (L : Str) (n : Str)
    (prs : List (Str × (Str → Option (Option Str))))
    (h : ∀ pr ∈ prs, pr.1 ≠ n) (fields : List (Str × Str)) :
    lookupA (prs.foldl (paramStep L) fields) n = lookupA fields n := by
  induction prs generalizing fields with
  | nil => rfl
  | cons pr rest ih =>
      have hpr : pr.1 ≠ n := h pr (by simp)
      have hrest : ∀ q ∈ rest, q.1 ≠ n := fun q hq => h q (by simp [hq])
      rw [List.foldl_cons, ih hrest]
      unfold paramStep
      cases hm : pr.2 L with
      | none => rfl
      | some o =>
          cases o with
          | none => rfl
          | some v => exact lookupA_insertA_ne fields pr.1 v n (Ne.symm hpr)

/-- C10: when a name is both a matched named capture group of the
primary regex and the name of a parameter extractor whose regex matches
the full line with a (non-empty) group 1, `extract_fields` maps the
name to the extractor's group-1 value — the extractor loop runs after
the named-capture loop and overwrites the entry. -/
theorem c10_param_extractor_overrides_capture (cp : CompiledPattern) (cap : MatchCap)
    (L : Str) (n v w : Str) (u t : List (Str × (Str → Option (Option Str))))
    (f : Str → Option (Option Str))
    (hn : n ∈ cp.captureNames) (hcap : lookupA cap.named n = some (some v))
    (hsplit : cp.paramRegexes = u ++ (n, f) :: t) (hf : f L = some (some w))
    (hlater : ∀ q ∈ t, q.1 ≠ n) (hw : w ≠ []) :
    lookupA (extractFields cp cap L) n = some w := by
  unfold extractFields
  rw [hsplit, List.foldl_append, List.foldl_cons]
  rw [foldl_paramStep_skip L n t hlater]
  show lookupA (paramStep L _ (n, f)) n = some w
  unfold paramStep
  dsimp only
  rw [hf]
  exact lookupA_insertA_self _ n w

/-- The concrete compiled pattern for the C10 witness: named group
`code` matched `"42"`, and a parameter extractor also named `code`
whose group 1 yields `"503"`. -/
def c10Compiled : CompiledPattern :=
  { pattern := c4Pattern
    capturesIter := fun _ => []
    captureNames := [strL ("code")]
    paramRegexes := [(strL ("code"), fun _ => some (some (strL ("503"))))] }

/-- The C10 witness capture: group `code` participated with value
`"42"`. -/
def c10Cap : MatchCap :=
  { start := 0, stop := 2, text := strL ("42")
    named := [(strL ("code"), some (strL ("42")))]
    positional := [some (strL ("42"))] }

/-- C10 witness: the extractor's value `"503"` overwrites the named
capture's `"42"`. -/
theorem c10_param_extractor_overrides_capture_witness :
    lookupA (extractFields c10Compiled c10Cap (strL ("req code=503"))) (strL ("code")) =
      some (strL ("503")) := by
  exact c10_param_extractor_overrides_capture c10Compiled c10Cap (strL ("req code=503"))
    (strL ("code")) (strL ("42")) (strL ("503")) []
    [] (fun _ => some (some (strL ("503"))))
    (by decide) (by decide) rfl rfl (by intro q hq; simp at hq) (by decide)

/-- C6: a `content = true` annotation, and a `production = false`
annotation when inactive patterns are not included, are rejected by
`convert` with a conversion error (the source's `ConversionFailed`
variant, which realizes the spec's `InvalidAnnotation` taxonomy entry),
so no `Pattern` is produced; and a failing conversion in a batch leaves
the conversion of every other annotation unaffected —
`convert_batch_with_products` of a batch containing the failing
annotation equals that of the batch without it, and always returns
`Ok`. -/
theorem c6_invalid_annotation_rejection (cfg : ConverterConfig) (rvalid : Str → Bool)
    (a : TagScoutAnnot) (product : Option Str) :
    (a.content = true → ∃ m, convert cfg rvalid a product = .error (.ConversionFailed m)) ∧
    (a.production = false → cfg.includeInactive = false →
      convert cfg rvalid a product =
        .error (.ConversionFailed (strL ("Pattern is not production-ready")))) ∧
    (∀ (pre post : List (Str × TagScoutAnnot)) (b : Str × TagScoutAnnot)
        (e : ConversionError),
      convert cfg rvalid b.2 (some b.1) = .error e →
      convertBatchWithProducts cfg rvalid (pre ++ b :: post) =
        convertBatchWithProducts cfg rvalid (pre ++ post)) := by
  refine ⟨?_, ?_, ?_⟩
  · intro hc
    unfold convert
    rw [if_pos hc]
    split
    · exact ⟨_, rfl⟩
    · exact ⟨_, rfl⟩
  · intro hp hi
    unfold convert
    rw [if_pos (by simp [hp, hi])]
  · intro pre post b e hb
    unfold convertBatchWithProducts
    rw [List.filterMap_append, List.filterMap_append, List.filterMap_cons]
    rw [hb]
    rfl

/-- A `content = true` annotation for the C6 witness. -/
def c6ContentAnnot : TagScoutAnnot :=
  { id := strL ("656f00000000000000000001")
    rawData := []
    regexes := [strL ("ERROR")]
    severity := strL ("error")
    category := [strL ("errors")]
    template := strL ("an error")
    production := true
    content := true
    documentation := []
    internalNotes := []
    multiline := none
    external := false
    borg := false
    parameters := [] }

/-- A `production = false` annotation for the C6 witness. -/
def c6InactiveAnnot : TagScoutAnnot :=
  { c6ContentAnnot with
    id := strL ("656f00000000000000000002")
    production := false
    content := false }

/-- A convertible annotation for the C6 witness. -/
def c6GoodAnnot : TagScoutAnnot :=
  { c6ContentAnnot with
    id := strL ("656f00000000000000000003")
    content := false }

/-- C6 witness: the content-only and non-production annotations are
rejected, and dropping the content-only annotation from a batch does
not change the batch result — the good annotation still converts. -/
theorem c6_invalid_annotation_rejection_witness :
    (∃ m, convert ConverterConfig.default (fun _ => true) c6ContentAnnot none =
      .error (.ConversionFailed m)) ∧
    convert ConverterConfig.default (fun _ => true) c6InactiveAnnot none =
      .error (.ConversionFailed (strL ("Pattern is not production-ready"))) ∧
    convertBatchWithProducts ConverterConfig.default (fun _ => true)
        [(strL ("jabber"), c6ContentAnnot), (strL ("jabber"), c6GoodAnnot)] =
      convertBatchWithProducts ConverterConfig.default (fun _ => true)
        [(strL ("jabber"), c6GoodAnnot)] ∧
    (convertBatchWithProducts ConverterConfig.default (fun _ => true)
        [(strL ("jabber"), c6GoodAnnot)]).toOption.map List.length = some 1 := by
  refine ⟨?_, ?_, ?_, ?_⟩
  · exact (c6_invalid_annotation_rejection ConverterConfig.default (fun _ => true)
      c6ContentAnnot none).1 rfl
  · exact (c6_invalid_annotation_rejection ConverterConfig.default (fun _ => true)
      c6InactiveAnnot none).2.1 rfl rfl
  · exact (c6_invalid_annotation_rejection ConverterConfig.default (fun _ => true)
      c6ContentAnnot none).2.2 [] [(strL ("jabber"), c6GoodAnnot)]
      (strL ("jabber"), c6ContentAnnot) (.ConversionFailed (strL ("Content annotation")))
      (by rfl)
  · decide

/-- Whether the placeholder regex for the literal name `k` matches
anywhere in `s`. -/
def hasPh (k : Str) : Str → Bool
  | [] => false
  | c :: r => (pMatchLit k (c :: r)).isSome || hasPh k r

/-- `replace_all` is the identity on a string with no occurrence of the
placeholder. -/
theorem replaceAllLit_id_of_not_hasPh (k val s : Str) (h : hasPh k s = false) :
    replaceAllLit k val s = s := by
  induction s with
  | nil => rfl
  | cons c r ih =>
      unfold hasPh at h
      simp only [Bool.or_eq_false_iff] at h
      obtain ⟨h1, h2⟩ := h
      rw [replaceAllLit_cons]
      cases hm : pMatchLit k (c :: r) with
      | none => rw [ih h2]
      | some p => rw [hm] at h1; simp at h1

/-- `substitute_template` is the identity on a string with no
occurrence of any of the map's placeholders. -/
theorem substituteTemplate_id (v : List (Str × Str)) (s : Str)
    (h : ∀ kv ∈ v, hasPh kv.1 s = false) :
    substituteTemplate s v = s := by
  induction v with
  | nil => rfl
  | cons kv rest ih =>
      show List.foldl _ (replaceAllLit kv.1 kv.2 s) rest = s
      rw [replaceAllLit_id_of_not_hasPh kv.1 kv.2 s (h kv (by simp))]
      exact ih (fun q hq => h q (by simp [hq]))

/-- Scan of the identifier-shaped placeholder names occurring in a
template (the names `substitute(t, v)` can resolve; a direct reading of
"placeholder name referenced in `t`"). -/
def phNames : Str → List Str
  | [] => []
  | c :: r =>
      match pMatchIdent (c :: r) with
      | some (n, _) => n :: phNames r
      | none => phNames r

/-- The template and map of the C8 counterexample: the value of `a`
itself contains the placeholder `{{a}}`. -/
def c8T : Str := ['{', '{', 'a', '}', '}']

def c8V : List (Str × Str) := [([ 'a' ], [ 'x', '{', '{', 'a', '}', '}' ])]

/-- C8 counterexample: every placeholder name referenced in the
template is a key of the map (the only name is `a`), yet substitution
is not idempotent — the first pass yields `x{{a}}` and the second
`xx{{a}}`, because substituted values are rescanned by later passes. -/
theorem c8_idempotence_counterexample :
    (∀ n ∈ phNames c8T, ∃ kv ∈ c8V, kv.1 = n) ∧
    substituteTemplate c8T c8V = [ 'x', '{', '{', 'a', '}', '}' ] ∧
    substituteTemplate (substituteTemplate c8T c8V) c8V ≠ substituteTemplate c8T c8V := by
  refine ⟨?_, by decide, by decide⟩
  intro n hn
  have hn' : n = [ 'a' ] := by
    have : phNames c8T = [[ 'a' ]] := by decide
    rw [this] at hn
    simpa using hn
  subst hn'
  exact ⟨([ 'a' ], [ 'x', '{', '{', 'a', '}', '}' ]), by simp [c8V]⟩

/-- C8 amended: substitution is idempotent whenever its result contains
no remaining occurrence of any key's placeholder (which is what the
claim's "all referenced fields present" was after, but does not
guarantee, since substituted values may re-introduce key
placeholders). -/
theorem c8_idempotence_amended (t : Str) (v : List (Str × Str))
    (h : ∀ kv ∈ v, hasPh kv.1 (substituteTemplate t v) = false) :
    substituteTemplate (substituteTemplate t v) v = substituteTemplate t v :=
  substituteTemplate_id v (substituteTemplate t v) h

/-- C8 amended witness: for `t = "{{a}} {{b}}"`, `v = {a: "1"}`, the
output `"1 {{b}}"` contains no `{{a}}` placeholder, and substitution is
idempotent on it. -/
theorem c8_idempotence_amended_witness :
    substituteTemplate (substituteTemplate
        ['{', '{', 'a', '}', '}', ' ', '{', '{', 'b', '}', '}']
        [([ 'a' ], [ '1' ])]) [([ 'a' ], [ '1' ])] =
      substituteTemplate ['{', '{', 'a', '}', '}', ' ', '{', '{', 'b', '}', '}']
        [([ 'a' ], [ '1' ])] := by
  exact c8_idempotence_amended ['{', '{', 'a', '}', '}', ' ', '{', '{', 'b', '}', '}']
    [([ 'a' ], [ '1' ])] (by decide)

/-- A successful association-list lookup is a member. -/
theorem lookupA_mem {α β : Type} [DecidableEq α] (l : List (α × β)) (k : α) (v : β)
    (h : lookupA l k = some v) : (k, v) ∈ l := by
  unfold lookupA at h
  cases hf : l.find? (fun p => decide (p.1 = k)) with
  | none => rw [hf] at h; simp at h
  | some p =>
      rw [hf] at h
      simp only [Option.map] at h
      injection h with h
      have hm : p ∈ l := List.mem_of_find?_eq_some hf
      have hk : p.1 = k := by
        have hp := List.find?_some hf
        simpa using hp
      have : p = (k, v) := by
        cases p
        simp_all
      rwa [this] at hm

/-- With pairwise-distinct keys, membership determines the lookup. -/
theorem lookupA_of_mem_nodup {α β : Type} [DecidableEq α] (l : List (α × β)) (k : α) (v : β)
    (hnd : (l.map Prod.fst).Nodup) (h : (k, v) ∈ l) : lookupA l k = some v := by
  induction l with
  | nil => simp at h
  | cons p rest ih =>
      simp only [List.map_cons, List.nodup_cons] at hnd
      rcases List.mem_cons.mp h with heq | hmem
      · rw [← heq]
        simp [lookupA, List.find?_cons]
      · have hne : p.1 ≠ k := by
          intro e
          exact hnd.1 (e ▸ List.mem_map.mpr ⟨(k, v), hmem, rfl⟩)
        unfold lookupA
        rw [List.find?_cons]
        have : (decide (p.1 = k)) = false := by simpa using hne
        rw [this]
        exact ih hnd.2 hmem

/-- The group list after `addToGroups`: the key of `d` gains `d` at its
back, every other key is untouched. -/
theorem addToGroups_lookup (gs : List ((Nat × (Nat × Nat)) × List Detection)) (d : Detection)
    (k : Nat × (Nat × Nat)) :
    lookupA (addToGroups gs d) k =
      if k = detKey d then some (((lookupA gs k).getD []) ++ [d]) else lookupA gs k := by
  induction gs with
  | nil =>
      by_cases hk : k = detKey d
      · rw [if_pos hk]
        subst hk
        simp [addToGroups, lookupA, List.find?_cons]
      · rw [if_neg hk]
        have h1 : (decide (detKey d = k)) = false := by simpa using fun e => hk e.symm
        simp [addToGroups, lookupA, List.find?_cons, h1]
  | cons p rest ih =>
      obtain ⟨k₀, g₀⟩ := p
      simp only [addToGroups]
      by_cases h₀ : k₀ = detKey d
      · rw [if_pos h₀]
        by_cases hk : k = k₀
        · have hkd : k = detKey d := hk.trans h₀
          rw [if_pos hkd]
          subst hk
          simp [lookupA, List.find?_cons]
        · have hne : ¬ k = detKey d := fun e => hk (e.trans h₀.symm)
          rw [if_neg hne]
          have h1 : (decide (k₀ = k)) = false := by simpa using fun e => hk e.symm
          simp [lookupA, List.find?_cons, h1]
      · rw [if_neg h₀]
        by_cases hk : k = k₀
        · have hne : ¬ k = detKey d := fun e => h₀ (hk.symm.trans e)
          rw [if_neg hne]
          subst hk
          simp [lookupA, List.find?_cons]
        · have h1 : (decide (k₀ = k)) = false := by simpa using fun e => hk e.symm
          unfold lookupA at ih ⊢
          simp only [List.find?_cons, h1]
          exact ih

/-- `addToGroups` appends the key only when it is new. -/
theorem addToGroups_keys (gs : List ((Nat × (Nat × Nat)) × List Detection)) (d : Detection) :
    (addToGroups gs d).map Prod.fst =
      if detKey d ∈ gs.map Prod.fst then gs.map Prod.fst
      else gs.map Prod.fst ++ [detKey d] := by
  induction gs with
  | nil => simp [addToGroups]
  | cons p rest ih =>
      obtain ⟨k₀, g₀⟩ := p
      simp only [addToGroups]
      by_cases h₀ : k₀ = detKey d
      · rw [if_pos h₀, h₀]
        simp
      · rw [if_neg h₀]
        simp only [List.map_cons, ih]
        have hne : detKey d ≠ k₀ := fun e => h₀ e.symm
        by_cases hm : detKey d ∈ rest.map Prod.fst
        · rw [if_pos hm, if_pos (by simp [List.mem_cons, hm])]
        · rw [if_neg hm, if_neg (by simp [List.mem_cons, hne, hm])]
          simp

/-- `addToGroups` preserves key distinctness. -/
theorem addToGroups_nodup (gs : List ((Nat × (Nat × Nat)) × List Detection)) (d : Detection)
    (h : (gs.map Prod.fst).Nodup) : ((addToGroups gs d).map Prod.fst).Nodup := by
  rw [addToGroups_keys]
  split
  · exact h
  · rename_i hnm
    simp [List.nodup_append, h, hnm]

/-- The lookup a group list represents: the (non-empty) filter of the
processed detections by key. -/
def optGroup (P : List Detection) (k : Nat × (Nat × Nat)) : Option (List Detection) :=
  if P.filter (fun d => decide (detKey d = k)) = [] then none
  else some (P.filter (fun d => decide (detKey d = k)))

/-- The grouping fold: starting from a group list representing `P`, the
fold over `ds` represents `P ++ ds`, with distinct keys. -/
theorem groupsBy_go (ds : List Detection) :
    ∀ (gs : List ((Nat × (Nat × Nat)) × List Detection)) (P : List Detection),
      (∀ k, lookupA gs k = optGroup P k) → (gs.map Prod.fst).Nodup →
      (∀ k, lookupA (ds.foldl addToGroups gs) k = optGroup (P ++ ds) k) ∧
        ((ds.foldl addToGroups gs).map Prod.fst).Nodup := by
  induction ds with
  | nil =>
      intro gs P hl hnd
      exact ⟨fun k => by simpa using hl k, hnd⟩
  | cons d rest ih =>
      intro gs P hl hnd
      have hstep : ∀ k, lookupA (addToGroups gs d) k = optGroup (P ++ [d]) k := by
        intro k
        rw [addToGroups_lookup, hl]
        by_cases hk : k = detKey d
        · subst hk
          have hpos : (decide (detKey d = detKey d)) = true := by simp
          unfold optGroup
          rw [List.filter_append]
          simp only [List.filter_cons, hpos, List.filter_nil]
          by_cases he : P.filter (fun d' => decide (detKey d' = detKey d)) = []
          · simp [he]
          · simp [he, if_pos rfl]
        · have hneg : (decide (detKey d = k)) = false := by simpa using fun e => hk e.symm
          unfold optGroup
          rw [List.filter_append]
          simp [List.filter_cons, hneg, hk]
      have := ih (addToGroups gs d) (P ++ [d]) hstep (addToGroups_nodup gs d hnd)
      simpa [List.foldl_cons, List.append_assoc] using this

/-- `groupsBy` represents exactly the by-key filters of the input, with
distinct keys. -/
theorem groupsBy_spec (ds : List Detection) :
    (∀ k, lookupA (groupsBy ds) k = optGroup ds k) ∧
      ((groupsBy ds).map Prod.fst).Nodup := by
  have h := groupsBy_go ds [] [] (fun k => by simp [lookupA, optGroup]) (by simp)
  exact ⟨fun k => h.1 k, h.2⟩

/-- Every entry of `groupsBy ds` is a non-empty by-key filter of
`ds`. -/
theorem mem_groupsBy (ds : List Detection) (kg : (Nat × (Nat × Nat)) × List Detection)
    (h : kg ∈ groupsBy ds) :
    kg.2 = ds.filter (fun d => decide (detKey d = kg.1)) ∧ kg.2 ≠ [] := by
  obtain ⟨hl, hnd⟩ := groupsBy_spec ds
  have hlook : lookupA (groupsBy ds) kg.1 = some kg.2 := by
    obtain ⟨k, g⟩ := kg
    exact lookupA_of_mem_nodup _ _ _ hnd h
  rw [hl kg.1] at hlook
  unfold optGroup at hlook
  split at hlook
  · simp at hlook
  · rename_i hne
    simp only [Option.some.injEq] at hlook
    exact ⟨hlook.symm, fun he => hne (hlook.trans he)⟩

/-- Membership in a stable insertion. -/
theorem mem_insOrd {α : Type} (le : α → α → Bool) (a x : α) (l : List α) :
    x ∈ insOrd le a l ↔ x = a ∨ x ∈ l := by
  induction l with
  | nil => simp [insOrd]
  | cons b t ih =>
      unfold insOrd
      split
      · simp [List.mem_cons]
      · simp only [List.mem_cons, ih]
        tauto

/-- Membership is preserved by the stable sort. -/
theorem mem_isortBy {α : Type} (le : α → α → Bool) (x : α) (l : List α) :
    x ∈ isortBy le l ↔ x ∈ l := by
  induction l with
  | nil => simp [isortBy]
  | cons a t ih =>
      simp [isortBy, mem_insOrd, ih]

/-- The stable sort permutes its input. -/
theorem perm_insOrd {α : Type} (le : α → α → Bool) (a : α) (l : List α) :
    (insOrd le a l).Perm (a :: l) := by
  induction l with
  | nil => simp [insOrd]
  | cons b t ih =>
      unfold insOrd
      split
      · exact List.Perm.refl _
      · exact (List.Perm.cons b ih).trans (List.Perm.swap a b t)

theorem perm_isortBy {α : Type} (le : α → α → Bool) (l : List α) :
    (isortBy le l).Perm l := by
  induction l with
  | nil => exact List.Perm.refl _
  | cons a t ih =>
      exact (perm_insOrd le a (isortBy le t)).trans (List.Perm.cons a ih)

/-- Insertion keeps a list sorted under a `Nat`-key comparison. -/
theorem pairwise_insOrd_natKey {α : Type} (f : α → Nat) (a : α) (l : List α)
    (hl : l.Pairwise (fun x y => f x ≤ f y)) :
    (insOrd (fun x y => decide (f x ≤ f y)) a l).Pairwise (fun x y => f x ≤ f y) := by
  induction l with
  | nil => simp [insOrd]
  | cons b t ih =>
      rw [List.pairwise_cons] at hl
      unfold insOrd
      split
      · rename_i hab
        have hab' : f a ≤ f b := by simpa using hab
        rw [List.pairwise_cons]
        refine ⟨?_, List.pairwise_cons.mpr hl⟩
        intro x hx
        rcases List.mem_cons.mp hx with rfl | hx
        · exact hab'
        · exact Nat.le_trans hab' (hl.1 x hx)
      · rename_i hab
        have hab' : f b ≤ f a := by
          have : ¬ f a ≤ f b := by simpa using hab
          omega
        rw [List.pairwise_cons]
        refine ⟨?_, ih hl.2⟩
        intro x hx
        rcases (mem_insOrd _ a x t).mp hx with rfl | hx
        · exact hab'
        · exact hl.1 x hx

/-- The stable sort sorts under a `Nat`-key comparison. -/
theorem pairwise_isortBy_natKey {α : Type} (f : α → Nat) (l : List α) :
    (isortBy (fun x y => decide (f x ≤ f y)) l).Pairwise (fun x y => f x ≤ f y) := by
  induction l with
  | nil => simp [isortBy]
  | cons a t ih => exact pairwise_insOrd_natKey f a (isortBy _ t) ih

/-- The minimal severity rank of a group (`4` for the empty group; all
ranks are at most `3`). -/
def minRank (g : List Detection) : Nat :=
  g.foldr (fun d m => min (severityRank d.finalSeverity) m) 4

theorem severityRank_le_three (s : Severity) : severityRank s ≤ 3 := by
  cases s <;> simp [severityRank]

theorem minRank_le (g : List Detection) (d : Detection) (h : d ∈ g) :
    minRank g ≤ severityRank d.finalSeverity := by
  induction g with
  | nil => simp at h
  | cons a t ih =>
      rcases List.mem_cons.mp h with rfl | h
      · exact Nat.min_le_left _ _
      · exact Nat.le_trans (Nat.min_le_right _ _) (ih h)

/-- The head of a singleton insertion. -/
theorem head_insOrd {α : Type} (le : α → α → Bool) (a b : α) (t : List α) :
    (insOrd le a (b :: t)).head? = some (if le a b then a else b) := by
  unfold insOrd
  split <;> simp_all

/-- The head of the rank-sorted group is its first minimal-rank element
(the stable sort keeps insertion order among equal ranks). -/
theorem head_isortBy_rank (g : List Detection) :
    (isortBy rankLe g).head? =
      g.find? (fun d => decide (severityRank d.finalSeverity = minRank g)) := by
  induction g with
  | nil => rfl
  | cons a l ih =>
      show (insOrd rankLe a (isortBy rankLe l)).head? = _
      cases hs : isortBy rankLe l with
      | nil =>
          have hl : l = [] := by
            cases l with
            | nil => rfl
            | cons b t =>
                exfalso
                have : b ∈ isortBy rankLe (b :: t) := by
                  rw [mem_isortBy]
                  simp
                rw [hs] at this
                simp at this
          subst hl
          have hm : minRank [a] = severityRank a.finalSeverity := by
            have := severityRank_le_three a.finalSeverity
            simp only [minRank, List.foldr]
            omega
          simp [insOrd, List.find?_cons, hm]
      | cons b t =>
          rw [hs] at ih
          have hb : b ∈ l := by
            have : b ∈ isortBy rankLe l := by
              rw [hs]
              simp
            rwa [mem_isortBy] at this
          have hbmin : severityRank b.finalSeverity = minRank l := by
            have := List.find?_some ih.symm
            simpa using this
          rw [head_insOrd]
          have hmr : minRank (a :: l) =
              min (severityRank a.finalSeverity) (minRank l) := rfl
          by_cases hab : severityRank a.finalSeverity ≤ minRank l
          · have h1 : rankLe a b = true := by
              simp only [rankLe]
              rw [hbmin]
              simpa using hab
            have h2 : minRank (a :: l) = severityRank a.finalSeverity := by
              rw [hmr]; omega
            rw [h1, List.find?_cons]
            simp [h2]
          · have h1 : rankLe a b = false := by
              simp only [rankLe]
              rw [hbmin]
              simpa using hab
            have h2 : minRank (a :: l) = minRank l := by
              rw [hmr]; omega
            have h3 : (decide (severityRank a.finalSeverity = minRank (a :: l))) = false := by
              rw [h2]
              simp
              omega
            rw [h1, List.find?_cons, h3, h2]
            exact ih

/-- `pickGroup` of a non-empty group is the head of its rank-sorted
form (the singleton branch agrees). -/
theorem pickGroup_eq (kg : (Nat × (Nat × Nat)) × List Detection) :
    pickGroup kg = (isortBy rankLe kg.2).head? := by
  unfold pickGroup
  split
  · rename_i hlen
    obtain ⟨d, hd⟩ := List.length_eq_one.mp hlen
    rw [hd]
    rfl
  · rfl

/-- A picked survivor belongs to its group and carries its key. -/
theorem pickGroup_mem (ds : List Detection) (kg : (Nat × (Nat × Nat)) × List Detection)
    (hkg : kg ∈ groupsBy ds) (r : Detection) (h : pickGroup kg = some r) :
    r ∈ kg.2 ∧ detKey r = kg.1 := by
  rw [pickGroup_eq] at h
  have hr : r ∈ isortBy rankLe kg.2 := by
    cases hs : isortBy rankLe kg.2 with
    | nil => rw [hs] at h; simp at h
    | cons b t =>
        rw [hs] at h
        simp only [List.head?] at h
        injection h with h
        subst h
        simp
  rw [mem_isortBy] at hr
  have hfilter := (mem_groupsBy ds kg hkg).1
  refine ⟨hr, ?_⟩
  rw [hfilter] at hr
  have := List.mem_filter.mp hr
  simpa using this.2

/-- C2: deduplication keeps, for every key present in the input,
exactly one survivor — the first detection of that key's group whose
severity rank is minimal (highest severity, ties broken by insertion
order); every survivor comes from the input; no survivor is dominated
by a same-key detection of strictly higher severity; and the survivors
are sorted by line number. -/
theorem c2_deduplication_spec (ds : List Detection) :
    (∀ r ∈ deduplicateDetections ds, r ∈ ds ∧
      (ds.filter (fun d => decide (detKey d = detKey r))).find?
        (fun d => decide (severityRank d.finalSeverity =
          minRank (ds.filter (fun d' => decide (detKey d' = detKey r))))) = some r) ∧
    (∀ d ∈ ds, ∃ r ∈ deduplicateDetections ds, detKey r = detKey d) ∧
    (deduplicateDetections ds).Pairwise (fun a b => detKey a ≠ detKey b) ∧
    (∀ r ∈ deduplicateDetections ds,
      ¬ ∃ d ∈ ds, detKey d = detKey r ∧
        severityRank d.finalSeverity < severityRank r.finalSeverity) ∧
    (deduplicateDetections ds).Pairwise (fun a b => a.lineNumber ≤ b.lineNumber) := by
  obtain ⟨hlook, hnd⟩ := groupsBy_spec ds
  have hsurv : ∀ r, r ∈ deduplicateDetections ds ↔
      ∃ kg ∈ groupsBy ds, pickGroup kg = some r := by
    intro r
    unfold deduplicateDetections
    rw [mem_isortBy, List.mem_filterMap]
  have hchar : ∀ r ∈ deduplicateDetections ds, r ∈ ds ∧
      (ds.filter (fun d => decide (detKey d = detKey r))).find?
        (fun d => decide (severityRank d.finalSeverity =
          minRank (ds.filter (fun d' => decide (detKey d' = detKey r))))) = some r := by
    intro r hr
    obtain ⟨kg, hkg, hpick⟩ := (hsurv r).mp hr
    obtain ⟨hmem, hkey⟩ := pickGroup_mem ds kg hkg r hpick
    have hfilter := (mem_groupsBy ds kg hkg).1
    have hrds : r ∈ ds := by
      rw [hfilter] at hmem
      exact (List.mem_filter.mp hmem).1
    refine ⟨hrds, ?_⟩
    rw [pickGroup_eq, head_isortBy_rank] at hpick
    rw [← hkey] at hfilter
    rw [← hfilter]
    exact hpick
  refine ⟨hchar, ?_, ?_, ?_, ?_⟩
  · intro d hd
    have hne : ds.filter (fun d' => decide (detKey d' = detKey d)) ≠ [] := by
      intro he
      have : d ∈ ds.filter (fun d' => decide (detKey d' = detKey d)) := by
        rw [List.mem_filter]
        simp [hd]
      rw [he] at this
      simp at this
    have hlk : lookupA (groupsBy ds) (detKey d) =
        some (ds.filter (fun d' => decide (detKey d' = detKey d))) := by
      rw [hlook]
      unfold optGroup
      rw [if_neg hne]
    have hkg : (detKey d, ds.filter (fun d' => decide (detKey d' = detKey d))) ∈
        groupsBy ds := lookupA_mem _ _ _ hlk
    have hnonempty : isortBy rankLe (ds.filter (fun d' => decide (detKey d' = detKey d))) ≠
        [] := by
      intro he
      apply hne
      cases hf : ds.filter (fun d' => decide (detKey d' = detKey d)) with
      | nil => rfl
      | cons b t =>
          exfalso
          have : b ∈ isortBy rankLe (b :: t) := by
            rw [mem_isortBy]
            simp
          rw [← hf, he] at this
          simp at this
    obtain ⟨r, hr⟩ : ∃ r, pickGroup (detKey d,
        ds.filter (fun d' => decide (detKey d' = detKey d))) = some r := by
      rw [pickGroup_eq]
      cases hs : isortBy rankLe (ds.filter (fun d' => decide (detKey d' = detKey d))) with
      | nil => exact absurd hs hnonempty
      | cons b t => exact ⟨b, rfl⟩
    refine ⟨r, (hsurv r).mpr ⟨_, hkg, hr⟩, ?_⟩
    exact (pickGroup_mem ds _ hkg r hr).2
  · have hpw : ((groupsBy ds).filterMap pickGroup).Pairwise
        (fun a b => detKey a ≠ detKey b) := by
      have : ∀ (gs : List ((Nat × (Nat × Nat)) × List Detection)),
          (∀ kg ∈ gs, kg ∈ groupsBy ds) → (gs.map Prod.fst).Nodup →
          (gs.filterMap pickGroup).Pairwise (fun a b => detKey a ≠ detKey b) := by
        intro gs
        induction gs with
        | nil => intro _ _; simp
        | cons kg rest ih =>
            intro hsub hnd'
            simp only [List.map_cons, List.nodup_cons] at hnd'
            rw [List.filterMap_cons]
            cases hp : pickGroup kg with
            | none => exact ih (fun q hq => hsub q (by simp [hq])) hnd'.2
            | some r =>
                rw [List.pairwise_cons]
                refine ⟨?_, ih (fun q hq => hsub q (by simp [hq])) hnd'.2⟩
                intro b hb
                obtain ⟨kg', hkg', hp'⟩ := List.mem_filterMap.mp hb
                have hk1 : detKey r = kg.1 :=
                  (pickGroup_mem ds kg (hsub kg (by simp)) r hp).2
                have hk2 : detKey b = kg'.1 :=
                  (pickGroup_mem ds kg' (hsub kg' (by simp [hkg'])) b hp').2
                rw [hk1, hk2]
                intro he
                exact hnd'.1 (he ▸ List.mem_map.mpr ⟨kg', hkg', rfl⟩)
      exact this (groupsBy ds) (fun kg h => h) hnd
    have hperm := perm_isortBy lineLe ((groupsBy ds).filterMap pickGroup)
    exact (List.Perm.pairwise_iff (fun h e => h e.symm) hperm).mpr hpw
  · intro r hr
    rintro ⟨d, hd, hkey, hrank⟩
    obtain ⟨-, hfind⟩ := hchar r hr
    have hp := List.find?_some hfind
    have hrmin : severityRank r.finalSeverity =
        minRank (ds.filter (fun d' => decide (detKey d' = detKey r))) := by
      simpa using hp
    have hdmem : d ∈ ds.filter (fun d' => decide (detKey d' = detKey r)) := by
      rw [List.mem_filter]
      simp [hd, hkey]
    have := minRank_le _ d hdmem
    omega
  · unfold deduplicateDetections
    have h := pairwise_isortBy_natKey (fun d => d.lineNumber)
      ((groupsBy ds).filterMap pickGroup)
    exact h

/-- The `Warning` detection of spec §8 scenario 4: `"boom"` at
`(0, 0..4)`. -/
def c2W : Detection :=
  { pattern := c1Pattern
    lineNumber := 0
    columnRange := (0, 4)
    matchedText := strL ("boom")
    captures := []
    context := [strL ("boom")]
    timestamp := none
    logLevel := none
    finalSeverity := .Warning
    fieldValues := [] }

/-- The `Error` detection at the same location. -/
def c2E : Detection := { c2W with finalSeverity := .Error }

/-- C2 witness: deduplicating the scenario-4 pair keeps exactly the
`Error` detection, and the theorem's coverage clause yields a survivor
for the suppressed `Warning` detection's key. -/
theorem c2_deduplication_spec_witness :
    deduplicateDetections [c2W, c2E] = [c2E] ∧
    (∃ r ∈ deduplicateDetections [c2W, c2E], detKey r = detKey c2W) := by
  constructor
  · decide
  · exact (c2_deduplication_spec [c2W, c2E]).2.1 c2W (by decide)

/-- Identifier-shaped placeholder names `[A-Za-z_][A-Za-z0-9_]*`. -/
def isIdentStr : Str → Bool
  | [] => false
  | c :: r => isIdentStart c && r.all isIdentChar

/-- Values safe for the claim's reading of substitution: free of the
placeholder delimiters and of the replacement-string escape
character. -/
def valOK (val : Str) : Bool := val.all (fun c => c ≠ '{' ∧ c ≠ '}' ∧ c ≠ '$')

/-- The claim's view of a template: a concatenation of brace-free
literal segments and `{{`-placeholders with whitespace padding. -/
inductive Chunk where
  | lit (s : Str)
  | ph (n l r : Str)
deriving DecidableEq, Repr

/-- Well-formedness of a chunk: literals are brace-free, placeholder
names identifier-shaped, padding whitespace. -/
def chunkOK : Chunk → Bool
  | .lit s => s.all (fun c => c ≠ '{' ∧ c ≠ '}')
  | .ph n l r => isIdentStr n && l.all isWs && r.all isWs

/-- The text of a chunk. -/
def renderChunk : Chunk → Str
  | .lit s => s
  | .ph n l r => '{' :: '{' :: (l ++ n ++ r ++ ['}', '}'])

/-- The template a chunk list denotes. -/
def renderChunks (cs : List Chunk) : Str := (cs.map renderChunk).flatten

/-- The claim's specified output for one chunk: a placeholder whose
name is a key becomes the raw value, anything else stays verbatim. -/
def renderSubstBy (done : List (Str × Str)) : Chunk → Str
  | .lit s => s
  | .ph n l r =>
      match lookupA done n with
      | some val => val
      | none => renderChunk (.ph n l r)

/-- The claim's specified output for a chunk list. -/
def renderPartial (done : List (Str × Str)) (cs : List Chunk) : Str :=
  (cs.map (renderSubstBy done)).flatten

theorem ws_of_identStart (c : Char) (h : isIdentStart c = true) : isWs c = false := by
  by_contra hw
  have hw' : isWs c = true := by
    cases hws : isWs c with
    | true => rfl
    | false => exact absurd hws hw
  have : c = ' ' ∨ c = '\t' ∨ c = '\n' ∨ c = '\r' ∨ c = '\x0b' ∨ c = '\x0c' := by
    simpa [isWs] using hw'
  rcases this with rfl | rfl | rfl | rfl | rfl | rfl <;> exact absurd h (by decide)

theorem ws_of_identChar (c : Char) (h : isIdentChar c = true) : isWs c = false := by
  by_contra hw
  have hw' : isWs c = true := by
    cases hws : isWs c with
    | true => rfl
    | false => exact absurd hws hw
  have : c = ' ' ∨ c = '\t' ∨ c = '\n' ∨ c = '\r' ∨ c = '\x0b' ∨ c = '\x0c' := by
    simpa [isWs] using hw'
  rcases this with rfl | rfl | rfl | rfl | rfl | rfl <;> exact absurd h (by decide)

theorem identChar_ne_lbrace (c : Char) (h : isIdentChar c = true) : c ≠ '{' :=
  fun e => absurd h (by subst e; decide)

theorem identChar_ne_rbrace (c : Char) (h : isIdentChar c = true) : c ≠ '}' :=
  fun e => absurd h (by subst e; decide)

theorem identStart_ne_lbrace (c : Char) (h : isIdentStart c = true) : c ≠ '{' :=
  fun e => absurd h (by subst e; decide)

theorem ws_ne_lbrace (c : Char) (h : isWs c = true) : c ≠ '{' :=
  fun e => absurd h (by subst e; decide)

theorem ws_ne_rbrace (c : Char) (h : isWs c = true) : c ≠ '}' :=
  fun e => absurd h (by subst e; decide)

/-- Every character of an identifier string is an identifier
character. -/
theorem identStr_all (n : Str) (h : isIdentStr n = true) :
    ∀ c ∈ n, isIdentChar c = true := by
  cases n with
  | nil => simp [isIdentStr] at h
  | cons c r =>
      simp only [isIdentStr, Bool.and_eq_true] at h
      intro x hx
      rcases List.mem_cons.mp hx with rfl | hx
      · simp [isIdentChar, h.1]
      · exact (List.all_eq_true.mp h.2) x hx

/-- A non-`{` head admits no placeholder match. -/
theorem pMatchLit_none_head (k : Str) (c : Char) (s : Str) (h : c ≠ '{') :
    pMatchLit k (c :: s) = none := by
  unfold pMatchLit
  split <;> simp_all

/-- A non-`{` second character admits no placeholder match. -/
theorem pMatchLit_none_head2 (k : Str) (c₁ c₂ : Char) (s : Str) (h : c₂ ≠ '{') :
    pMatchLit k (c₁ :: c₂ :: s) = none := by
  unfold pMatchLit
  split <;> simp_all

/-- Scanning copies a `{`-free prefix verbatim. -/
theorem replaceAllLit_copy (k val a t : Str) (ha : ∀ c ∈ a, c ≠ '{') :
    replaceAllLit k val (a ++ t) = a ++ replaceAllLit k val t := by
  induction a with
  | nil => rfl
  | cons c a' ih =>
      have hc : c ≠ '{' := ha c (by simp)
      rw [List.cons_append, replaceAllLit_cons, pMatchLit_none_head k c _ hc,
        ih (fun x hx => ha x (by simp [hx]))]
      rfl

/-- Whitespace padding facts used by the placeholder lemmas. -/
theorem identChar_of_ws_false (c : Char) (h : isWs c = true) : isIdentChar c = false := by
  cases hic : isIdentChar c with
  | false => rfl
  | true => rw [ws_of_identChar c hic] at h; exact absurd h (by simp)

/-- The placeholder scan at the rendering of the scanned name's own
placeholder: it matches, consuming exactly the placeholder. -/
theorem pMatchLit_ph_self (k l r t : Str) (hk : isIdentStr k = true)
    (hl : ∀ c ∈ l, isWs c = true) (hr : ∀ c ∈ r, isWs c = true) :
    pMatchLit k (renderChunk (.ph k l r) ++ t) =
      some ('{' :: '{' :: (l ++ k ++ r ++ ['}', '}']), t) := by
  obtain ⟨kc, ktl, rfl⟩ : ∃ kc ktl, k = kc :: ktl := by
    cases k with
    | nil => simp [isIdentStr] at hk
    | cons kc ktl => exact ⟨kc, ktl, rfl⟩
  simp only [isIdentStr, Bool.and_eq_true] at hk
  have hkw : isWs kc = false := ws_of_identStart kc hk.1
  have hrw : isWs '}' = false := by decide
  have hassoc : renderChunk (.ph (kc :: ktl) l r) ++ t =
      '{' :: '{' :: (l ++ ((kc :: ktl) ++ (r ++ ('}' :: '}' :: t)))) := by
    simp [renderChunk, List.append_assoc]
  rw [hassoc]
  have hdrop : (l ++ ((kc :: ktl) ++ (r ++ ('}' :: '}' :: t)))).dropWhile isWs =
      (kc :: ktl) ++ (r ++ ('}' :: '}' :: t)) := by
    rw [List.dropWhile_append_of_pos hl, List.cons_append,
      List.dropWhile_cons_of_neg (by simp [hkw]), ← List.cons_append]
  have htake : (l ++ ((kc :: ktl) ++ (r ++ ('}' :: '}' :: t)))).takeWhile isWs = l := by
    rw [List.takeWhile_append_of_pos hl, List.cons_append,
      List.takeWhile_cons_of_neg (by simp [hkw]), List.append_nil]
  have hpre : (kc :: ktl).isPrefixOf ((kc :: ktl) ++ (r ++ ('}' :: '}' :: t))) = true :=
    List.isPrefixOf_iff_prefix.mpr (List.prefix_append _ _)
  have hdropn : ((kc :: ktl) ++ (r ++ ('}' :: '}' :: t))).drop (kc :: ktl).length =
      r ++ ('}' :: '}' :: t) := List.drop_left _ _
  have htake2 : (r ++ ('}' :: '}' :: t)).takeWhile isWs = r := by
    rw [List.takeWhile_append_of_pos hr, List.takeWhile_cons_of_neg (by simp [hrw]),
      List.append_nil]
  have hdrop2 : (r ++ ('}' :: '}' :: t)).dropWhile isWs = '}' :: '}' :: t := by
    rw [List.dropWhile_append_of_pos hr, List.dropWhile_cons_of_neg (by simp [hrw])]
  rw [show pMatchLit (kc :: ktl) ('{' :: '{' :: (l ++ (kc :: ktl ++ (r ++ '}' :: '}' :: t)))) =
      (if (kc :: ktl).isPrefixOf
          ((l ++ (kc :: ktl ++ (r ++ '}' :: '}' :: t))).dropWhile isWs) then
        match ((l ++ (kc :: ktl ++ (r ++ '}' :: '}' :: t))).dropWhile isWs |>.drop
            (kc :: ktl).length).dropWhile isWs with
        | '}' :: '}' :: rest =>
            some ('{' :: '{' ::
              ((l ++ (kc :: ktl ++ (r ++ '}' :: '}' :: t))).takeWhile isWs ++ (kc :: ktl) ++
                ((l ++ (kc :: ktl ++ (r ++ '}' :: '}' :: t))).dropWhile isWs |>.drop
                  (kc :: ktl).length).takeWhile isWs ++ ['}', '}']), rest)
        | _ => none
      else none) from rfl]
  rw [hdrop, htake]
  rw [if_pos hpre]
  rw [hdropn, htake2, hdrop2]
  simp [List.append_assoc]

/-- If an identifier `k` is a prefix of `n ++ m` where `n` is a
different identifier and `m` does not start with an identifier
character, then `k` is shorter than `n`. -/
theorem prefix_ident_lt (k n m : Str) (hk : isIdentStr k = true) (hn : isIdentStr n = true)
    (hne : k ≠ n) (hm : ∀ c, m.head? = some c → isIdentChar c = false)
    (hpre : k <+: n ++ m) : k.length < n.length := by
  by_contra hge
  have hnk : n <+: k :=
    List.prefix_of_prefix_length_le (List.prefix_append n m) hpre (by omega)
  obtain ⟨k', rfl⟩ := hnk
  have hk'ne : k' ≠ [] := by
    rintro rfl
    exact hne (List.append_nil n)
  obtain ⟨s, hs⟩ := hpre
  rw [List.append_assoc] at hs
  have hm' : k' ++ s = m := List.append_cancel_left hs
  cases k' with
  | nil => exact hk'ne rfl
  | cons c k'' =>
      have hc : isIdentChar c = true :=
        identStr_all _ hk c (by simp)
      have : m.head? = some c := by rw [← hm']; rfl
      rw [hm c this] at hc
      exact absurd hc (by simp)

/-- The placeholder scan at the rendering of a *different* name's
placeholder: no match. -/
theorem pMatchLit_ph_other (k n l r t : Str) (hk : isIdentStr k = true)
    (hn : isIdentStr n = true) (hne : k ≠ n)
    (hl : ∀ c ∈ l, isWs c = true) (hr : ∀ c ∈ r, isWs c = true) :
    pMatchLit k (renderChunk (.ph n l r) ++ t) = none := by
  obtain ⟨nc, ntl, rfl⟩ : ∃ nc ntl, n = nc :: ntl := by
    cases n with
    | nil => simp [isIdentStr] at hn
    | cons nc ntl => exact ⟨nc, ntl, rfl⟩
  have hnw : isWs nc = false := by
    simp only [isIdentStr, Bool.and_eq_true] at hn
    exact ws_of_identStart nc hn.1
  have hassoc : renderChunk (.ph (nc :: ntl) l r) ++ t =
      '{' :: '{' :: (l ++ ((nc :: ntl) ++ (r ++ ('}' :: '}' :: t)))) := by
    simp [renderChunk, List.append_assoc]
  rw [hassoc]
  have hdrop : (l ++ ((nc :: ntl) ++ (r ++ ('}' :: '}' :: t)))).dropWhile isWs =
      (nc :: ntl) ++ (r ++ ('}' :: '}' :: t)) := by
    rw [List.dropWhile_append_of_pos hl, List.cons_append,
      List.dropWhile_cons_of_neg (by simp [hnw]), ← List.cons_append]
  rw [show pMatchLit k ('{' :: '{' :: (l ++ (nc :: ntl ++ (r ++ '}' :: '}' :: t)))) =
      (if k.isPrefixOf ((l ++ (nc :: ntl ++ (r ++ '}' :: '}' :: t))).dropWhile isWs) then
        match ((l ++ (nc :: ntl ++ (r ++ '}' :: '}' :: t))).dropWhile isWs |>.drop
            k.length).dropWhile isWs with
        | '}' :: '}' :: rest =>
            some ('{' :: '{' ::
              ((l ++ (nc :: ntl ++ (r ++ '}' :: '}' :: t))).takeWhile isWs ++ k ++
                ((l ++ (nc :: ntl ++ (r ++ '}' :: '}' :: t))).dropWhile isWs |>.drop
                  k.length).takeWhile isWs ++ ['}', '}']), rest)
        | _ => none
      else none) from rfl]
  rw [hdrop]
  cases hpre : k.isPrefixOf ((nc :: ntl) ++ (r ++ ('}' :: '}' :: t))) with
  | false => simp
  | true =>
      rw [if_pos rfl]
      have hpre' : k <+: (nc :: ntl) ++ (r ++ ('}' :: '}' :: t)) :=
        List.isPrefixOf_iff_prefix.mp hpre
      have hmhead : ∀ c, (r ++ ('}' :: '}' :: t)).head? = some c → isIdentChar c = false := by
        intro c hc
        cases r with
        | nil =>
            simp only [List.nil_append, List.head?] at hc
            injection hc with hc
            subst hc
            decide
        | cons rc rtl =>
            simp only [List.cons_append, List.head?] at hc
            injection hc with hc
            rw [← hc]
            exact identChar_of_ws_false rc (hr rc (by simp))
      have hlt : k.length < (nc :: ntl).length :=
        prefix_ident_lt k (nc :: ntl) _ hk hn hne hmhead hpre'
      have hdropn : ((nc :: ntl) ++ (r ++ ('}' :: '}' :: t))).drop k.length =
          (nc :: ntl).drop k.length ++ (r ++ ('}' :: '}' :: t)) :=
        List.drop_append_of_le_length (Nat.le_of_lt hlt)
      rw [hdropn]
      obtain ⟨c₀, rest₀, hd⟩ : ∃ c₀ rest₀,
          (nc :: ntl).drop k.length = c₀ :: rest₀ := by
        cases hdd : (nc :: ntl).drop k.length with
        | nil =>
            exfalso
            have hlen := List.length_drop k.length (nc :: ntl)
            rw [hdd] at hlen
            simp only [List.length_nil, List.length_cons] at hlen
            simp only [List.length_cons] at hlt
            omega
        | cons c₀ rest₀ => exact ⟨c₀, rest₀, rfl⟩
      rw [hd]
      have hc₀ : isIdentChar c₀ = true := by
        apply identStr_all _ hn
        exact List.mem_of_mem_drop (hd ▸ (by simp : c₀ ∈ c₀ :: rest₀))
      have hc₀w : isWs c₀ = false := ws_of_identChar c₀ hc₀
      rw [List.cons_append, List.dropWhile_cons_of_neg (by simp [hc₀w])]
      split
      · rename_i heq
        exfalso
        have : c₀ = '}' := by
          injection heq with h1 h2
        exact identChar_ne_rbrace c₀ hc₀ this
      · rfl

/-- Replacement expansion is the identity on `$`-free strings. -/
theorem expandReplF_no_dollar (w : Str) : ∀ (fuel : Nat) (s : Str), s.length ≤ fuel →
    (∀ c ∈ s, c ≠ '$') → expandReplF w fuel s = s := by
  intro fuel
  induction fuel with
  | zero =>
      intro s hl h
      cases s with
      | nil => rfl
      | cons c r => simp at hl
  | succ f ih =>
      intro s hl h
      cases s with
      | nil => rfl
      | cons c r =>
          have hc : c ≠ '$' := h c (by simp)
          rw [expandReplF.eq_def]
          split
          · simp_all
          · simp_all
          · simp_all
          · simp_all
          · simp_all
          · rename_i hf hs
            injection hf with hf
            injection hs with h1 h2
            subst hf
            subst h1
            subst h2
            rw [ih r (by simp only [List.length_cons] at hl; omega)
              (fun x hx => h x (by simp [hx]))]

theorem expandRepl_no_dollar (w s : Str) (h : ∀ c ∈ s, c ≠ '$') :
    expandRepl w s = s :=
  expandReplF_no_dollar w s.length s (Nat.le_refl _) h

/-- Every character of a rendered placeholder body is brace-free
except the delimiters themselves; in particular none is `{` when taken
from the padding, the name, or the closing braces minus the first two
characters. -/
theorem ph_body_no_lbrace (n l r : Str) (hn : isIdentStr n = true)
    (hl : ∀ c ∈ l, isWs c = true) (hr : ∀ c ∈ r, isWs c = true) :
    ∀ c ∈ l ++ n ++ r ++ ['}', '}'], c ≠ '{' := by
  intro c hc
  simp only [List.append_assoc, List.mem_append, List.mem_cons, List.not_mem_nil] at hc
  rcases hc with hc | hc | hc | hc
  · exact ws_ne_lbrace c (hl c hc)
  · exact identChar_ne_lbrace c (identStr_all n hn c hc)
  · exact ws_ne_lbrace c (hr c hc)
  · rcases hc with rfl | rfl | h
    · decide
    · decide
    · exact absurd h (by simp)

/-- Scanning a different name's placeholder copies it verbatim. -/
theorem replaceAllLit_ph_other_copy (k val n l r t : Str) (hk : isIdentStr k = true)
    (hn : isIdentStr n = true) (hne : k ≠ n)
    (hl : ∀ c ∈ l, isWs c = true) (hr : ∀ c ∈ r, isWs c = true) :
    replaceAllLit k val (renderChunk (.ph n l r) ++ t) =
      renderChunk (.ph n l r) ++ replaceAllLit k val t := by
  have h0 := pMatchLit_ph_other k n l r t hk hn hne hl hr
  have hbody := ph_body_no_lbrace n l r hn hl hr
  obtain ⟨c₂, Y', hY⟩ : ∃ c₂ Y', l ++ n ++ r ++ ['}', '}'] = c₂ :: Y' := by
    cases hYY : l ++ n ++ r ++ ['}', '}'] with
    | nil =>
        exfalso
        have : ('}' : Char) ∈ l ++ n ++ r ++ ['}', '}'] := by simp
        rw [hYY] at this
        simp at this
    | cons c₂ Y' => exact ⟨c₂, Y', rfl⟩
  have hs : renderChunk (.ph n l r) ++ t = '{' :: '{' :: ((c₂ :: Y') ++ t) := by
    rw [show renderChunk (.ph n l r) ++ t =
      '{' :: '{' :: ((l ++ n ++ r ++ ['}', '}']) ++ t) from rfl, hY]
  rw [hs] at h0 ⊢
  rw [replaceAllLit_cons, h0]
  dsimp only
  have hc₂ : c₂ ≠ '{' := hbody c₂ (by rw [hY]; simp)
  have hY' : ∀ c ∈ Y', c ≠ '{' := fun c hc => hbody c (by rw [hY]; simp [hc])
  rw [show (((c₂ :: Y') ++ t : Str)) = c₂ :: (Y' ++ t) from rfl]
  rw [replaceAllLit_cons, pMatchLit_none_head2 k '{' c₂ _ hc₂]
  dsimp only
  rw [show ((c₂ :: (Y' ++ t) : Str)) = (c₂ :: Y') ++ t from rfl]
  rw [replaceAllLit_copy k val (c₂ :: Y') t
    (fun c hc => by
      rcases List.mem_cons.mp hc with rfl | hc
      · exact hc₂
      · exact hY' c hc)]
  rw [show renderChunk (.ph n l r) ++ replaceAllLit k val t =
    '{' :: '{' :: ((l ++ n ++ r ++ ['}', '}']) ++ replaceAllLit k val t) from rfl, hY]

/-- Scanning the key's own placeholder substitutes the raw value (for
`$`-free values). -/
theorem replaceAllLit_ph_self_subst (k val l r t : Str) (hk : isIdentStr k = true)
    (hl : ∀ c ∈ l, isWs c = true) (hr : ∀ c ∈ r, isWs c = true)
    (hval : ∀ c ∈ val, c ≠ '$') :
    replaceAllLit k val (renderChunk (.ph k l r) ++ t) = val ++ replaceAllLit k val t := by
  have h0 := pMatchLit_ph_self k l r t hk hl hr
  have hs : renderChunk (.ph k l r) ++ t =
      '{' :: '{' :: ((l ++ k ++ r ++ ['}', '}']) ++ t) := rfl
  rw [hs] at h0 ⊢
  rw [replaceAllLit_cons, h0]
  dsimp only
  rw [expandRepl_no_dollar _ val hval]

/-- A hit in the left list survives appending. -/
theorem lookupA_append_some {α β : Type} [DecidableEq α] (l₁ l₂ : List (α × β)) (k : α)
    (v : β) (h : lookupA l₁ k = some v) : lookupA (l₁ ++ l₂) k = some v := by
  unfold lookupA at h ⊢
  rw [List.find?_append]
  cases hf : l₁.find? (fun p => decide (p.1 = k)) with
  | none => rw [hf] at h; simp at h
  | some p => rw [hf] at h; simpa using h

/-- A miss in the left list defers to the right list. -/
theorem lookupA_append_none {α β : Type} [DecidableEq α] (l₁ l₂ : List (α × β)) (k : α)
    (h : lookupA l₁ k = none) : lookupA (l₁ ++ l₂) k = lookupA l₂ k := by
  unfold lookupA at h ⊢
  rw [List.find?_append]
  cases hf : l₁.find? (fun p => decide (p.1 = k)) with
  | none => simp
  | some p => rw [hf] at h; simp at h

/-- `renderPartial` unfolds chunkwise. -/
theorem renderPartial_cons (done : List (Str × Str)) (ch : Chunk) (cs : List Chunk) :
    renderPartial done (ch :: cs) = renderSubstBy done ch ++ renderPartial done cs := rfl

/-- Processing one field of the map turns the partially substituted
rendering into the rendering with that binding added. -/
theorem replaceAll_renderPartial (k val : Str) (cs : List Chunk) (done : List (Str × Str))
    (hcs : ∀ ch ∈ cs, chunkOK ch = true) (hk : isIdentStr k = true)
    (hval : valOK val = true) (hdone : ∀ kv ∈ done, valOK kv.2 = true) :
    replaceAllLit k val (renderPartial done cs) = renderPartial (done ++ [(k, val)]) cs := by
  induction cs with
  | nil => rfl
  | cons ch rest ih =>
      have hch := hcs ch (by simp)
      have hrest : ∀ c ∈ rest, chunkOK c = true := fun c hc => hcs c (by simp [hc])
      rw [renderPartial_cons, renderPartial_cons]
      cases ch with
      | lit s =>
          have hsfree : ∀ c ∈ s, c ≠ '{' := by
            have h1 : ∀ x ∈ s, ¬x = '{' ∧ ¬x = '}' := by simpa [chunkOK] using hch
            intro c hc
            exact (h1 c hc).1
          rw [show renderSubstBy done (.lit s) = s from rfl,
            show renderSubstBy (done ++ [(k, val)]) (.lit s) = s from rfl]
          rw [replaceAllLit_copy k val s _ hsfree, ih hrest]
      | ph n l r =>
          simp only [chunkOK, Bool.and_eq_true] at hch
          obtain ⟨⟨hnid, hlws⟩, hrws⟩ := hch
          have hlws' : ∀ c ∈ l, isWs c = true := List.all_eq_true.mp hlws
          have hrws' : ∀ c ∈ r, isWs c = true := List.all_eq_true.mp hrws
          cases hlook : lookupA done n with
          | some val₀ =>
              have hval₀ : valOK val₀ = true := by
                have hmem := lookupA_mem done n val₀ hlook
                exact hdone (n, val₀) hmem
              have hval₀free : ∀ c ∈ val₀, c ≠ '{' := by
                intro c hc
                have := (List.all_eq_true.mp hval₀) c hc
                simp at this
                exact this.1
              rw [show renderSubstBy done (.ph n l r) = val₀ from by
                  simp [renderSubstBy, hlook],
                show renderSubstBy (done ++ [(k, val)]) (.ph n l r) = val₀ from by
                  simp [renderSubstBy, lookupA_append_some done [(k, val)] n val₀ hlook]]
              rw [replaceAllLit_copy k val val₀ _ hval₀free, ih hrest]
          | none =>
              by_cases hkn : n = k
              · subst hkn
                have hvaldollar : ∀ c ∈ val, c ≠ '$' := by
                  intro c hc
                  have := (List.all_eq_true.mp hval) c hc
                  simp at this
                  exact this.2.2
                rw [show renderSubstBy done (.ph n l r) = renderChunk (.ph n l r) from by
                    simp [renderSubstBy, hlook]]
                rw [replaceAllLit_ph_self_subst n val l r _ hnid hlws' hrws' hvaldollar]
                rw [ih hrest]
                have hlook2 : lookupA (done ++ [(n, val)]) n = some val := by
                  rw [lookupA_append_none done [(n, val)] n hlook]
                  simp [lookupA, List.find?_cons]
                rw [show renderSubstBy (done ++ [(n, val)]) (.ph n l r) = val from by
                    simp [renderSubstBy, hlook2]]
              · rw [show renderSubstBy done (.ph n l r) = renderChunk (.ph n l r) from by
                    simp [renderSubstBy, hlook]]
                rw [replaceAllLit_ph_other_copy k val n l r _ hk hnid
                  (fun e => hkn e.symm) hlws' hrws']
                rw [ih hrest]
                have hlook2 : lookupA (done ++ [(k, val)]) n = none := by
                  rw [lookupA_append_none done [(k, val)] n hlook]
                  have : (decide (k = n)) = false := by simpa using fun e => hkn e.symm
                  simp [lookupA, List.find?_cons, this]
                rw [show renderSubstBy (done ++ [(k, val)]) (.ph n l r) =
                    renderChunk (.ph n l r) from by simp [renderSubstBy, hlook2]]

/-- C3 amended: on templates that are concatenations of brace-free
literals and whitespace-padded identifier placeholders, and for maps
whose keys are identifier-shaped and whose values contain no `{`, `}`
or `$`, `substitute_template` replaces every occurrence of a key's
placeholder (any spacing variant) with the raw value and leaves every
other placeholder verbatim.  Without the value restriction this fails:
values act as regex replacement strings (`$0` expands to the matched
placeholder), and substituted values are rescanned by later passes. -/
theorem c3_substitution_amended (cs : List Chunk) (v : List (Str × Str))
    (hcs : ∀ ch ∈ cs, chunkOK ch = true)
    (hv : ∀ kv ∈ v, isIdentStr kv.1 = true ∧ valOK kv.2 = true) :
    substituteTemplate (renderChunks cs) v = renderPartial v cs := by
  have hbase : renderChunks cs = renderPartial [] cs := by
    unfold renderChunks renderPartial
    have hmap : cs.map renderChunk = cs.map (renderSubstBy []) := by
      apply List.map_congr_left
      intro ch hch
      cases ch <;> rfl
    rw [hmap]
  have main : ∀ (v' done : List (Str × Str)),
      (∀ kv ∈ v', isIdentStr kv.1 = true ∧ valOK kv.2 = true) →
      (∀ kv ∈ done, valOK kv.2 = true) →
      List.foldl (fun acc kv => replaceAllLit kv.1 kv.2 acc) (renderPartial done cs) v' =
        renderPartial (done ++ v') cs := by
    intro v'
    induction v' with
    | nil =>
        intro done _ _
        simp
    | cons kv v'' ih =>
        intro done hv' hdone
        rw [List.foldl_cons]
        rw [show replaceAllLit kv.1 kv.2 (renderPartial done cs) =
            renderPartial (done ++ [(kv.1, kv.2)]) cs from
          replaceAll_renderPartial kv.1 kv.2 cs done hcs (hv' kv (by simp)).1
            (hv' kv (by simp)).2 hdone]
        have hdone' : ∀ q ∈ done ++ [(kv.1, kv.2)], valOK q.2 = true := by
          intro q hq
          rcases List.mem_append.mp hq with hq | hq
          · exact hdone q hq
          · simp at hq
            rw [hq]
            exact (hv' kv (by simp)).2
        have := ih (done ++ [(kv.1, kv.2)]) (fun q hq => hv' q (by simp [hq])) hdone'
        rw [this]
        simp
  have h := main v [] hv (by simp)
  simp only [List.nil_append] at h
  calc substituteTemplate (renderChunks cs) v
      = List.foldl (fun acc kv => replaceAllLit kv.1 kv.2 acc) (renderPartial [] cs) v := by
        rw [← hbase]
        rfl
    _ = renderPartial v cs := h

/-- C3 counterexample: on the template `{{a}}` (the rendering of a
single `a`-placeholder) with `field_values = {a: "$0"}`, the code
leaves `{{a}}` — the `$0` in the value is expanded as a regex
replacement reference to the whole matched placeholder — whereas the
claim ("replaced with the raw value string") requires `$0`. -/
theorem c3_substitution_counterexample :
    renderChunks [Chunk.ph ['a'] [] []] = ['{', '{', 'a', '}', '}'] ∧
    substituteTemplate ['{', '{', 'a', '}', '}'] [([ 'a' ], [ '$', '0' ])] =
      ['{', '{', 'a', '}', '}'] ∧
    renderPartial [([ 'a' ], [ '$', '0' ])] [Chunk.ph ['a'] [] []] = [ '$', '0' ] ∧
    (['{', '{', 'a', '}', '}'] : Str) ≠ [ '$', '0' ] := by
  refine ⟨by decide, by decide, by decide, by decide⟩

/-- The chunk form of the spec's placeholder-robustness template
`"status={{status}} user={{ user }}"`. -/
def c3Chunks : List Chunk :=
  [ .lit (strL ("status=")),
    .ph (strL ("status")) [] [],
    .lit (strL (" user=")),
    .ph (strL ("user")) [' '] [' '] ]

/-- C3 amended witness: rendering the scenario template with
`{status: "503"}` yields `status=503 user={{ user }}` — the `status`
placeholder (no-space variant) is replaced with the raw value and the
unresolved `{{ user }}` is left verbatim. -/
theorem c3_substitution_amended_witness :
    substituteTemplate (renderChunks c3Chunks) [(strL ("status"), strL ("503"))] =
      strL ("status=503 user=") ++ ('{' :: '{' :: (strL (" user ") ++ ['}', '}'])) := by
  have h := c3_substitution_amended c3Chunks [(strL ("status"), strL ("503"))]
    (by decide) (by decide)
  rw [h]
  decide

/-- The normalizer regex cannot match at a head other than a brace. -/
theorem pMatchIdent_none_head (c₁ : Char) (t : Str) (h : c₁ ≠ '{') :
    pMatchIdent (c₁ :: t) = none := by
  unfold pMatchIdent
  split <;> simp_all

/-- The normalizer regex cannot match without a second brace. -/
theorem pMatchIdent_none_head2 (c₁ c₂ : Char) (t : Str) (h : c₂ ≠ '{') :
    pMatchIdent (c₁ :: c₂ :: t) = none := by
  unfold pMatchIdent
  split <;> simp_all

/-- The normalizer regex needs at least two characters. -/
theorem pMatchIdent_single (c : Char) : pMatchIdent [c] = none := by
  unfold pMatchIdent
  split <;> simp_all

/-- A third brace blocks the normalizer regex (the `\s*` after `\{\{`
accepts no brace and `[A-Za-z_]` rejects it). -/
theorem pMatchIdent_lbrace3 (w : Str) : pMatchIdent ('{' :: '{' :: '{' :: w) = none := by
  rw [show pMatchIdent ('{' :: '{' :: '{' :: w) =
      (match ('{' :: w : Str).dropWhile isWs with
       | c :: r₂ =>
           if isIdentStart c then
             match (r₂.dropWhile isIdentChar).dropWhile isWs with
             | '}' :: '}' :: rest => some (c :: r₂.takeWhile isIdentChar, rest)
             | _ => none
           else none
       | [] => none) from rfl]
  rw [List.dropWhile_cons_of_neg (by decide)]
  dsimp only
  rw [if_neg (by decide)]

/-- Parsing a well-formed placeholder: whitespace padding, an
identifier name, whitespace padding, two closing braces; the match
consumes exactly that segment. -/
theorem pMatchIdent_build (l n r z : Str) (hl : ∀ c ∈ l, isWs c = true)
    (hn : isIdentStr n = true) (hr : ∀ c ∈ r, isWs c = true) :
    pMatchIdent ('{' :: '{' :: (l ++ (n ++ (r ++ '}' :: '}' :: z)))) = some (n, z) := by
  obtain ⟨nc, ntl, rfl⟩ : ∃ nc ntl, n = nc :: ntl := by
    cases n with
    | nil => simp [isIdentStr] at hn
    | cons nc ntl => exact ⟨nc, ntl, rfl⟩
  simp only [isIdentStr, Bool.and_eq_true] at hn
  have hnw : isWs nc = false := ws_of_identStart nc hn.1
  have hnic : isIdentChar nc = true := by
    simp only [isIdentChar]
    simp [hn.1]
  have hid : ∀ c ∈ ntl, isIdentChar c = true := List.all_eq_true.mp hn.2
  rw [show pMatchIdent ('{' :: '{' :: (l ++ ((nc :: ntl) ++ (r ++ '}' :: '}' :: z)))) =
      (match (l ++ ((nc :: ntl) ++ (r ++ '}' :: '}' :: z))).dropWhile isWs with
       | c :: r₂ =>
           if isIdentStart c then
             match (r₂.dropWhile isIdentChar).dropWhile isWs with
             | '}' :: '}' :: rest => some (c :: r₂.takeWhile isIdentChar, rest)
             | _ => none
           else none
       | [] => none) from rfl]
  have hdrop : (l ++ ((nc :: ntl) ++ (r ++ '}' :: '}' :: z))).dropWhile isWs =
      nc :: (ntl ++ (r ++ '}' :: '}' :: z)) := by
    rw [List.dropWhile_append_of_pos hl, List.cons_append,
      List.dropWhile_cons_of_neg (by simp [hnw])]
  rw [hdrop]
  dsimp only
  rw [if_pos hn.1]
  have hdid : (ntl ++ (r ++ '}' :: '}' :: z)).dropWhile isIdentChar =
      r ++ '}' :: '}' :: z := by
    rw [List.dropWhile_append_of_pos hid]
    cases r with
    | nil =>
        simp only [List.nil_append]
        rw [List.dropWhile_cons_of_neg (by decide)]
    | cons rc rtl =>
        simp only [List.cons_append]
        rw [List.dropWhile_cons_of_neg
          (by simp [identChar_of_ws_false rc (hr rc (by simp))])]
  have htak : (ntl ++ (r ++ '}' :: '}' :: z)).takeWhile isIdentChar = ntl := by
    rw [List.takeWhile_append_of_pos hid]
    cases r with
    | nil =>
        simp only [List.nil_append]
        rw [List.takeWhile_cons_of_neg (by decide), List.append_nil]
    | cons rc rtl =>
        simp only [List.cons_append]
        rw [List.takeWhile_cons_of_neg
          (by simp [identChar_of_ws_false rc (hr rc (by simp))]), List.append_nil]
  have hws2 : (r ++ '}' :: '}' :: z).dropWhile isWs = '}' :: '}' :: z := by
    rw [List.dropWhile_append_of_pos hr, List.dropWhile_cons_of_neg (by decide)]
  rw [hdid, hws2]
  rw [show (match ('}' :: '}' :: z : Str) with
       | '}' :: '}' :: rest =>
           some (nc :: (ntl ++ (r ++ '}' :: '}' :: z)).takeWhile isIdentChar, rest)
       | _ => none) =
      some (nc :: (ntl ++ (r ++ '}' :: '}' :: z)).takeWhile isIdentChar, z) from rfl]
  rw [htak]

/-- Inversion of a successful normalizer-regex parse: the input starts
with two braces, whitespace, an identifier, whitespace and two closing
braces, followed by the returned rest. -/
theorem pMatchIdent_some_inv (y n z : Str) (h : pMatchIdent y = some (n, z)) :
    ∃ l r, y = '{' :: '{' :: (l ++ (n ++ (r ++ '}' :: '}' :: z))) ∧
      (∀ c ∈ l, isWs c = true) ∧ isIdentStr n = true ∧ (∀ c ∈ r, isWs c = true) := by
  cases y with
  | nil => exact absurd h (by simp [pMatchIdent])
  | cons c₁ t₁ =>
      cases t₁ with
      | nil => rw [pMatchIdent_single] at h; exact absurd h (by simp)
      | cons c₂ t₂ =>
          by_cases hc₂ : c₂ = '{'
          case neg =>
            rw [pMatchIdent_none_head2 c₁ c₂ t₂ hc₂] at h
            exact absurd h (by simp)
          by_cases hc₁ : c₁ = '{'
          case neg =>
            rw [pMatchIdent_none_head c₁ _ hc₁] at h
            exact absurd h (by simp)
          subst hc₁
          subst hc₂
          rw [show pMatchIdent ('{' :: '{' :: t₂) =
              (match t₂.dropWhile isWs with
               | c :: r₂ =>
                   if isIdentStart c then
                     match (r₂.dropWhile isIdentChar).dropWhile isWs with
                     | '}' :: '}' :: rest => some (c :: r₂.takeWhile isIdentChar, rest)
                     | _ => none
                   else none
               | [] => none) from rfl] at h
          split at h
          · rename_i c r₂ hdw
            split at h
            · rename_i his
              split at h
              · rename_i rest hdw2
                simp only [Option.some.injEq, Prod.mk.injEq] at h
                obtain ⟨hn, hz⟩ := h
                have hs₁ : t₂ = t₂.takeWhile isWs ++
                    (c :: (r₂.takeWhile isIdentChar ++
                      ((r₂.dropWhile isIdentChar).takeWhile isWs ++ ('}' :: '}' :: z)))) := by
                  conv_lhs => rw [← List.takeWhile_append_dropWhile isWs t₂]
                  rw [hdw]
                  congr 1
                  congr 1
                  conv_lhs => rw [← List.takeWhile_append_dropWhile isIdentChar r₂]
                  congr 1
                  conv_lhs =>
                    rw [← List.takeWhile_append_dropWhile isWs (r₂.dropWhile isIdentChar)]
                  rw [hdw2, hz]
                refine ⟨t₂.takeWhile isWs, (r₂.dropWhile isIdentChar).takeWhile isWs,
                  ?_, ?_, ?_, ?_⟩
                · conv_lhs => rw [hs₁]
                  rw [← hn]
                  rfl
                · intro x hx
                  exact List.mem_takeWhile_imp hx
                · rw [← hn]
                  simp only [isIdentStr, Bool.and_eq_true]
                  exact ⟨his, List.all_eq_true.mpr (fun x hx => List.mem_takeWhile_imp hx)⟩
                · intro x hx
                  exact List.mem_takeWhile_imp hx
              · exact absurd h (by simp)
            · exact absurd h (by simp)
          · exact absurd h (by simp)

/-- A successful normalizer-regex parse needs two leading braces. -/
theorem pMatchIdent_some_head (y n z : Str) (h : pMatchIdent y = some (n, z)) :
    ∃ w, y = '{' :: '{' :: w := by
  obtain ⟨l, r, he, -, -, -⟩ := pMatchIdent_some_inv y n z h
  exact ⟨_, he⟩

/-- Character test used to delimit the scan-relevant region: everything
up to the next opening brace. -/
def nonLb (c : Char) : Bool := c ≠ '{'

/-- A suffix of an append is a suffix of the right part or a nonempty
suffix of the left part followed by the whole right part. -/
theorem suffix_append_cases {α : Type} (y a b : List α) (h : y <:+ a ++ b) :
    y <:+ b ∨ ∃ a', a' <:+ a ∧ a' ≠ [] ∧ y = a' ++ b := by
  induction a with
  | nil =>
      left
      simpa using h
  | cons x a ih =>
      rw [List.cons_append] at h
      rcases List.suffix_cons_iff.mp h with h | h
      · right
        exact ⟨x :: a, List.suffix_refl _, by simp, by simpa using h⟩
      · rcases ih h with h' | ⟨a', ha, hne, hy⟩
        · left
          exact h'
        · right
          exact ⟨a', ha.trans (List.suffix_cons x a), hne, hy⟩

/-- A prefix all of whose characters pass the test is a prefix of the
takeWhile. -/
theorem prefix_takeWhile_of_all (p : Char → Bool) :
    ∀ (C t : Str), (∀ c ∈ C, p c = true) → C <+: t → C <+: t.takeWhile p := by
  intro C
  induction C with
  | nil =>
      intro t _ _
      exact List.nil_prefix
  | cons c C ih =>
      intro t hall h
      obtain ⟨s, rfl⟩ := h
      rw [List.cons_append, List.takeWhile_cons_of_pos (hall c (by simp))]
      obtain ⟨u, hu⟩ := ih (C ++ s) (fun x hx => hall x (by simp [hx])) (List.prefix_append C s)
      exact ⟨u, by rw [List.cons_append, hu]⟩

/-- Normalization preserves the brace-free prefix: it copies every
character until the first opening brace, and whatever it emits at a
brace (a copied brace or a canonical placeholder) starts with a
brace. -/
theorem normalize_takeWhile_aux : ∀ (N : Nat) (s : Str), s.length ≤ N →
    (normalizeTemplateFields s).takeWhile nonLb = s.takeWhile nonLb := by
  intro N
  induction N with
  | zero =>
      intro s h
      have hs : s = [] := by
        cases s with
        | nil => rfl
        | cons a l => simp at h
      subst hs
      rfl
  | succ N ih =>
      intro s h
      cases s with
      | nil => rfl
      | cons c rest =>
          rw [normalizeTemplateFields_cons]
          cases hm : pMatchIdent (c :: rest) with
          | some p =>
              obtain ⟨m, q⟩ := p
              dsimp only
              obtain ⟨w, hw⟩ := pMatchIdent_some_head _ _ _ hm
              have hc : c = '{' := (List.cons_eq_cons.mp hw).1
              subst hc
              rw [show canonPh m ++ normalizeTemplateFields q =
                '{' :: ('{' :: ' ' :: ((m ++ [' ', '}', '}']) ++
                  normalizeTemplateFields q)) from by simp [canonPh]]
              rw [List.takeWhile_cons_of_neg (by decide),
                List.takeWhile_cons_of_neg (by decide)]
          | none =>
              dsimp only
              by_cases hc : nonLb c = true
              · rw [List.takeWhile_cons_of_pos hc, List.takeWhile_cons_of_pos hc,
                  ih rest (by simp only [List.length_cons] at h; omega)]
              · rw [List.takeWhile_cons_of_neg hc, List.takeWhile_cons_of_neg hc]

/-- Prefix preservation at the natural fuel. -/
theorem normalizeTemplateFields_takeWhile (s : Str) :
    (normalizeTemplateFields s).takeWhile nonLb = s.takeWhile nonLb :=
  normalize_takeWhile_aux s.length s (Nat.le_refl _)

/-- The canonical-placeholder invariant of C5: wherever the normalizer
regex matches in `u`, the matched text is exactly the canonical
placeholder (one space each side of the name). -/
def CanonicalPh (u : Str) : Prop :=
  ∀ y n z, y <:+ u → pMatchIdent y = some (n, z) → y = canonPh n ++ z

/-- Output of the normalizer satisfies the canonical-placeholder
invariant. -/
theorem normalize_canonical_aux : ∀ (N : Nat) (s : Str), s.length ≤ N →
    CanonicalPh (normalizeTemplateFields s) := by
  intro N
  induction N with
  | zero =>
      intro s h y n z hy hm
      have hs : s = [] := by
        cases s with
        | nil => rfl
        | cons a l => simp at h
      subst hs
      rw [show normalizeTemplateFields [] = [] from rfl] at hy
      have hy0 : y = [] := List.suffix_nil.mp hy
      subst hy0
      rw [show pMatchIdent ([] : Str) = none from rfl] at hm
      exact absurd hm (by simp)
  | succ N ih =>
      intro s h
      cases s with
      | nil =>
          intro y n z hy hm
          rw [show normalizeTemplateFields [] = [] from rfl] at hy
          have hy0 : y = [] := List.suffix_nil.mp hy
          subst hy0
          rw [show pMatchIdent ([] : Str) = none from rfl] at hm
          exact absurd hm (by simp)
      | cons c rest =>
          intro y n z hy hm
          rw [normalizeTemplateFields_cons] at hy
          cases hmc : pMatchIdent (c :: rest) with
          | some p =>
              obtain ⟨m, q⟩ := p
              rw [hmc] at hy
              dsimp only at hy
              have hq : q.length ≤ N := by
                have := pMatchIdent_rest_lt (c :: rest) m q hmc
                simp only [List.length_cons] at this h
                omega
              have hmid : isIdentStr m = true := by
                obtain ⟨-, -, -, -, hmid, -⟩ := pMatchIdent_some_inv _ _ _ hmc
                exact hmid
              rcases suffix_append_cases y (canonPh m) (normalizeTemplateFields q) hy with
                hy' | ⟨a', ha', hne, hya⟩
              · exact ih q hq y n z hy' hm
              · rcases List.suffix_cons_iff.mp ha' with hfull | ha₂
                · have hb : pMatchIdent (canonPh m ++ normalizeTemplateFields q) =
                      some (m, normalizeTemplateFields q) := by
                    rw [show canonPh m ++ normalizeTemplateFields q =
                      '{' :: '{' :: ([' '] ++ (m ++ ([' '] ++
                        '}' :: '}' :: normalizeTemplateFields q))) from by simp [canonPh]]
                    exact pMatchIdent_build [' '] m [' '] _ (by decide) hmid (by decide)
                  rw [hya, hfull] at hm
                  rw [show ('{' :: '{' :: ' ' :: (m ++ [' ', '}', '}']) ++
                      normalizeTemplateFields q : Str) =
                      canonPh m ++ normalizeTemplateFields q from by simp [canonPh]] at hm
                  rw [hb] at hm
                  simp only [Option.some.injEq, Prod.mk.injEq] at hm
                  obtain ⟨h1, h2⟩ := hm
                  rw [hya, hfull, ← h1, ← h2]
                  rfl
                · rcases List.suffix_cons_iff.mp ha₂ with hfull₂ | ha₃
                  · rw [hya, hfull₂] at hm
                    rw [show ('{' :: ' ' :: (m ++ [' ', '}', '}'])) ++
                        normalizeTemplateFields q =
                        '{' :: ' ' :: ((m ++ [' ', '}', '}']) ++
                          normalizeTemplateFields q) from rfl] at hm
                    rw [pMatchIdent_none_head2 '{' ' ' _ (by decide)] at hm
                    exact absurd hm (by simp)
                  · have hchars : ∀ x ∈ (' ' :: (m ++ [' ', '}', '}']) : Str), x ≠ '{' := by
                      intro x hx
                      rcases List.mem_cons.mp hx with rfl | hx
                      · decide
                      rcases List.mem_append.mp hx with hx | hx
                      · exact identChar_ne_lbrace x (identStr_all m hmid x hx)
                      · simp only [List.mem_cons, List.not_mem_nil, or_false] at hx
                        rcases hx with rfl | rfl | rfl <;> decide
                    cases a' with
                    | nil => exact absurd rfl hne
                    | cons a₁ t' =>
                        have ha₁ : a₁ ∈ (' ' :: (m ++ [' ', '}', '}']) : Str) :=
                          ha₃.subset (by simp)
                        rw [hya, List.cons_append] at hm
                        rw [pMatchIdent_none_head a₁ _ (hchars a₁ ha₁)] at hm
                        exact absurd hm (by simp)
          | none =>
              rw [hmc] at hy
              dsimp only at hy
              have hrest : rest.length ≤ N := by
                simp only [List.length_cons] at h
                omega
              rcases List.suffix_cons_iff.mp hy with hfull | hy'
              · rw [hfull] at hm ⊢
                obtain ⟨w, hw⟩ := pMatchIdent_some_head _ _ _ hm
                have hc : c = '{' := (List.cons_eq_cons.mp hw).1
                have hu : normalizeTemplateFields rest =
                    '{' :: w := (List.cons_eq_cons.mp hw).2
                subst hc
                cases rest with
                | nil =>
                    rw [show normalizeTemplateFields [] = [] from rfl] at hu
                    exact absurd hu (by simp)
                | cons d rest₁ =>
                    rw [normalizeTemplateFields_cons] at hu hm
                    cases hmd : pMatchIdent (d :: rest₁) with
                    | some p₂ =>
                        obtain ⟨m₂, q₂⟩ := p₂
                        rw [hmd] at hm
                        dsimp only at hm
                        rw [show ('{' :: (canonPh m₂ ++ normalizeTemplateFields q₂) : Str) =
                          '{' :: '{' :: '{' :: (' ' :: ((m₂ ++ [' ', '}', '}']) ++
                            normalizeTemplateFields q₂)) from rfl] at hm
                        rw [pMatchIdent_lbrace3] at hm
                        exact absurd hm (by simp)
                    | none =>
                        rw [hmd] at hm hu
                        dsimp only at hm hu
                        have hd : d = '{' := (List.cons_eq_cons.mp hu).1
                        subst hd
                        obtain ⟨l₂, r₂, heq, hlw, hni, hrw⟩ := pMatchIdent_some_inv _ _ _ hm
                        have hnr : normalizeTemplateFields rest₁ =
                            l₂ ++ (n ++ (r₂ ++ '}' :: '}' :: z)) :=
                          (List.cons_eq_cons.mp (List.cons_eq_cons.mp heq).2).2
                        have hCfree : ∀ x ∈ l₂ ++ (n ++ (r₂ ++ ['}', '}'])), nonLb x = true := by
                          intro x hx
                          simp only [nonLb, decide_eq_true_eq]
                          rcases List.mem_append.mp hx with hx | hx
                          · exact ws_ne_lbrace x (hlw x hx)
                          rcases List.mem_append.mp hx with hx | hx
                          · exact identChar_ne_lbrace x (identStr_all n hni x hx)
                          rcases List.mem_append.mp hx with hx | hx
                          · exact ws_ne_lbrace x (hrw x hx)
                          · simp only [List.mem_cons, List.not_mem_nil, or_false] at hx
                            rcases hx with rfl | rfl <;> decide
                        have hCpre : l₂ ++ (n ++ (r₂ ++ ['}', '}'])) <+:
                            normalizeTemplateFields rest₁ := by
                          refine ⟨z, ?_⟩
                          rw [hnr]
                          simp [List.append_assoc]
                        have hCtw : l₂ ++ (n ++ (r₂ ++ ['}', '}'])) <+:
                            (normalizeTemplateFields rest₁).takeWhile nonLb :=
                          prefix_takeWhile_of_all nonLb _ _ hCfree hCpre
                        rw [normalizeTemplateFields_takeWhile rest₁] at hCtw
                        have hCrest : l₂ ++ (n ++ (r₂ ++ ['}', '}'])) <+: rest₁ :=
                          hCtw.trans (List.takeWhile_prefix nonLb)
                        obtain ⟨z₂, hz₂⟩ := hCrest
                        have hbuild : pMatchIdent ('{' :: '{' :: rest₁) = some (n, z₂) := by
                          rw [← hz₂]
                          rw [show ((l₂ ++ (n ++ (r₂ ++ ['}', '}']))) ++ z₂ : Str) =
                            l₂ ++ (n ++ (r₂ ++ '}' :: '}' :: z₂)) from by
                              simp [List.append_assoc]]
                          exact pMatchIdent_build l₂ n r₂ z₂ hlw hni hrw
                        rw [hbuild] at hmc
                        exact absurd hmc (by simp)
              · exact ih rest hrest y n z hy' hm

/-- The stored fields of every added pattern satisfy the invariant. -/
theorem normalizeTemplateFields_canonical (s : Str) :
    CanonicalPh (normalizeTemplateFields s) :=
  normalize_canonical_aux s.length s (Nat.le_refl _)

/-- Looking up the just-inserted key finds the just-inserted value. -/
theorem lookupA_insertCP_self (l : List (Str × CachedPattern)) (k : Str) (v : CachedPattern) :
    lookupA (insertCP l k v) k = some v := by
  induction l with
  | nil => simp [insertCP, lookupA]
  | cons kv rest ih =>
      obtain ⟨k', v'⟩ := kv
      unfold insertCP
      by_cases hk : k' = k
      · rw [if_pos hk]
        simp [lookupA]
      · rw [if_neg hk]
        unfold lookupA at ih ⊢
        rw [List.find?_cons]
        have hd : (decide (k' = k)) = false := by simpa using hk
        simp only [hd]
        exact ih

/-- C5: after any `add_pattern`, every `\x7b\x7b name \x7d\x7d`-shaped
placeholder (name matching `[A-Za-z_][A-Za-z0-9_]*`) occurring in the
stored pattern's `annotation_text` and `category` fields is in the
canonical form with exactly one leading and one trailing space inside
the braces: wherever the placeholder regex matches in either stored
field, the matched text is exactly `\x7b\x7b NAME \x7d\x7d`. -/
theorem c5_add_pattern_placeholders_canonical (c : PatternCache) (a : TagScoutAnnot)
    (p : Pattern) (now : Nat) :
    ∃ cp, getPattern (addPattern c a p now) p.id = some cp ∧
      CanonicalPh cp.pattern.annotationText ∧ CanonicalPh cp.pattern.category := by
  refine ⟨{ annot := a,
            pattern := { p with
              annotationText := normalizeTemplateFields p.annotationText
              category := normalizeTemplateFields p.category
              parameterExtractors := normalizeParameters p.parameterExtractors
              pattern := trimStr p.pattern },
            cachedAt := now,
            checksum := calculateChecksum a }, ?_, ?_, ?_⟩
  · exact lookupA_insertCP_self c.patterns p.id _
  · exact normalizeTemplateFields_canonical p.annotationText
  · exact normalizeTemplateFields_canonical p.category

end LogScout
